import Mathlib

/-!
Shallow embedding of the rag-webapp core (src/ingest.py and src/rag.py):
the label normalizer, the chunk extraction pipeline of `run_ingestion`,
and the `RagChat` answer engine.  Strings are modelled as `List Char`;
Python regular expressions are embedded as explicit matching functions
over character lists (ASCII character classes; Python's Unicode-aware
`\w`/`\s`/`str.lower` are modelled by their ASCII restrictions, which is
the alphabet every claim exercises).
-/

namespace RagSpec

/-- ASCII model of Python's `\w` word-character class. -/
def isWordChar (c : Char) : Bool := c.isAlphanum || c = '_'

/-- ASCII model of Python's `\s` / `str.isspace` whitespace class. -/
def isPySpace (c : Char) : Bool :=
  c = ' ' || c = '\t' || c = '\n' || c = '\r' || c = '\x0b' || c = '\x0c'

/-- The roman-numeral letters of `ROMAN_MAP` (ingest.py line 41). -/
def isRomanChar (c : Char) : Bool :=
  c = 'i' || c = 'v' || c = 'x' || c = 'l' || c = 'c' || c = 'd' || c = 'm'

/-- The character class `[ivxlcdm\d]` used by the label regexes. -/
def isNumClass (c : Char) : Bool := c.isDigit || isRomanChar c

/-- The character class `[a-z]` (suffix letter of a label). -/
def isLowerAlpha (c : Char) : Bool := 'a' ≤ c && c ≤ 'z'

/-- Python `str.lower`, ASCII model. -/
def lowerL (cs : List Char) : List Char := cs.map Char.toLower

/-- `ROMAN_MAP` lookup with default 0: `ROMAN_MAP.get(ch, 0)` (ingest.py line 45). -/
def romanVal (c : Char) : Int :=
  if c = 'i' then 1 else if c = 'v' then 5 else if c = 'x' then 10
  else if c = 'l' then 50 else if c = 'c' then 100 else if c = 'd' then 500
  else if c = 'm' then 1000 else 0

/-- One step of `roman_to_int`'s loop: state is `(total, prev)`. -/
def romanStep (tp : Int × Int) (c : Char) : Int × Int :=
  let val := romanVal c
  (if val < tp.2 then tp.1 - val else tp.1 + val, val)

/-- ingest.py `roman_to_int`: scan `s.lower()` right to left, adding each
symbol's value, subtracting it when it is smaller than the previous one. -/
def roman_to_int (s : List Char) : Int :=
  ((lowerL s).reverse.foldl romanStep (0, 0)).1

/-- Decimal rendering worker: structural recursion on a fuel bound that is
always at least the number being rendered. -/
def natDigitsGo : Nat → Nat → List Char → List Char
  | 0, _, acc => acc
  | fuel + 1, n, acc =>
    if n < 10 then Char.ofNat (48 + n) :: acc
    else natDigitsGo fuel (n / 10) (Char.ofNat (48 + n % 10) :: acc)

/-- Decimal digits of a natural number (Python `str` on a non-negative int). -/
def natDigits (n : Nat) : List Char := natDigitsGo (n + 1) n []

/-- Python `str` on an int. -/
def pyIntStr (n : Int) : List Char :=
  if n < 0 then '-' :: natDigits n.natAbs else natDigits n.toNat

/-- Optional single-letter suffix `([a-z])?` at the head of the rest. -/
def matchSuffix : List Char → List Char
  | c :: _ => if isLowerAlpha c then [c] else []
  | [] => []

/-- The tail `\s*([ivxlcdm]+|\d+)([a-z])?` of `LABEL_RE` (ingest.py line 51):
roman alternative first, then digits; returns `(numeral, suffix)`. -/
def matchNumTail (r : List Char) : Option (List Char × List Char) :=
  let r1 := r.dropWhile isPySpace
  let rom := r1.takeWhile isRomanChar
  if rom ≠ [] then
    some (rom, matchSuffix (r1.dropWhile isRomanChar))
  else
    let dig := r1.takeWhile Char.isDigit
    if dig ≠ [] then some (dig, matchSuffix (r1.dropWhile Char.isDigit))
    else none

/-- Anchored match of `LABEL_RE = ^(fig(?:ure)?|table)\s*([ivxlcdm]+|\d+)([a-z])?`
on an (already lowercased) string; returns the three groups.  After a
successful `figure` head whose tail fails, the regex engine backtracks to
the bare `fig` head, so that alternative is tried too. -/
def labelREmatch (t : List Char) : Option (List Char × List Char × List Char) :=
  if "figure".toList.isPrefixOf t then
    match matchNumTail (t.drop 6) with
    | some (raw, suff) => some ("figure".toList, raw, suff)
    | none =>
      match matchNumTail (t.drop 3) with
      | some (raw, suff) => some ("fig".toList, raw, suff)
      | none => none
  else if "fig".toList.isPrefixOf t then
    match matchNumTail (t.drop 3) with
    | some (raw, suff) => some ("fig".toList, raw, suff)
    | none => none
  else if "table".toList.isPrefixOf t then
    match matchNumTail (t.drop 5) with
    | some (raw, suff) => some ("table".toList, raw, suff)
    | none => none
  else none

/-- ingest.py `label_key`: normalise `"Figure IIIb"` to `"fig3b"`.
`txt.lower().replace(" ", "")` removes only the space character. -/
def label_key (txt : List Char) : Option (List Char) :=
  if txt = [] then none
  else
    let t := (lowerL txt).filter (fun c => c ≠ ' ')
    match labelREmatch t with
    | none => none
    | some (head, raw, suff) =>
      let num := if raw ≠ [] && raw.all Char.isDigit then raw
                 else pyIntStr (roman_to_int raw)
      let key := (if "fig".toList.isPrefixOf head then "fig".toList
                  else "table".toList) ++ num
      some (key ++ suff)

/-- `label_key` on Lean strings. -/
def label_keyS (s : String) : Option String := (label_key s.toList).map List.asString

/-- ingest.py `clean` step 2, `re.sub(r'(?<=\w)-\n(?=\w)', "", text)`:
remove a hyphen-newline pair standing between two word characters; the
scan resumes at the look-ahead character, which may anchor the next match. -/
def dehyph : List Char → List Char
  | a :: '-' :: '\n' :: b :: rest2 =>
    if isWordChar a && isWordChar b then a :: dehyph (b :: rest2)
    else a :: dehyph ('-' :: '\n' :: b :: rest2)
  | a :: rest => a :: dehyph rest
  | [] => []
  termination_by cs => cs.length
  decreasing_by all_goals simp_arith

/-- ingest.py `clean` step 3, `re.sub(r'\s*\n\s*', " ", text)`: every
maximal whitespace run containing a newline collapses to one space. -/
def collapseNl : List Char → List Char
  | [] => []
  | c :: cs =>
    if isPySpace c then
      (if (c :: cs.takeWhile isPySpace).contains '\n' then [' ']
       else c :: cs.takeWhile isPySpace) ++ collapseNl (cs.dropWhile isPySpace)
    else c :: collapseNl cs
  termination_by cs => cs.length
  decreasing_by
    · exact Nat.lt_succ_of_le (List.dropWhile_sublist _).length_le
    · exact Nat.lt_succ_self _

/-- Python `str.strip()` (ASCII whitespace model). -/
def stripWs (cs : List Char) : List Char :=
  ((cs.dropWhile isPySpace).reverse.dropWhile isPySpace).reverse

/-- ingest.py `clean`: drop soft hyphens, rejoin hyphenated line breaks,
collapse newline-bearing whitespace runs to single spaces, strip. -/
def pyclean (text : List Char) : List Char :=
  stripWs (collapseNl (dehyph (text.filter (fun c => c ≠ '­'))))

/-- Does the math-token regex `(\\frac|\\sum|\\int|=|[∑∫√±×÷])`
(ingest.py line 143) match at the head of the string? -/
def mathAt (cs : List Char) : Bool :=
  "\\frac".toList.isPrefixOf cs || "\\sum".toList.isPrefixOf cs ||
  "\\int".toList.isPrefixOf cs ||
  (match cs with
   | c :: _ => c = '=' || c = '∑' || c = '∫' || c = '√' || c = '±' || c = '×' || c = '÷'
   | [] => false)

/-- `re.search` of the math-token regex: a match at some position. -/
def mathSearch : List Char → Bool
  | [] => false
  | c :: cs => mathAt (c :: cs) || mathSearch cs

/-- The `typ` classification of the text pass (ingest.py lines 142-144). -/
def classify (txt : List Char) : List Char :=
  if txt.length < 300 && mathSearch txt then "equation".toList else "text".toList

/-- Branch `fig(?:ure)?\.?\s*\d+[a-z]?` of `FIG_TBL` at the head of an
already lowercased string.  The optional `ure` and `.`, when present but
skipped, would leave the following `\s*\d+` to fail on the very same
character, so consuming them greedily needs no backtracking. -/
def figtblFigAt (cs : List Char) : Bool :=
  if "fig".toList.isPrefixOf cs then
    let r0 := cs.drop 3
    let r1 := if "ure".toList.isPrefixOf r0 then r0.drop 3 else r0
    let r2 := match r1 with | '.' :: t => t | _ => r1
    !((r2.dropWhile isPySpace).takeWhile Char.isDigit).isEmpty
  else false

/-- Branch `table\s+[ivxlcdm\d]+[a-z]?` of `FIG_TBL` at the head. -/
def figtblTableAt (cs : List Char) : Bool :=
  if "table".toList.isPrefixOf cs then
    let r := cs.drop 5
    !(r.takeWhile isPySpace).isEmpty &&
      !((r.dropWhile isPySpace).takeWhile isNumClass).isEmpty
  else false

def figtblSearchL : List Char → Bool
  | [] => false
  | c :: cs => figtblFigAt (c :: cs) || figtblTableAt (c :: cs) || figtblSearchL cs

/-- `FIG_TBL.search(md)` (ingest.py lines 131 and 168) as a Boolean:
case-insensitive unanchored search for a fig/table marker. -/
def figtblSearch (cs : List Char) : Bool := figtblSearchL (lowerL cs)

/-- One row of the SQLite `chunks` table (ingest.py lines 101-107). -/
structure ChunkRow where
  chunk_id : Nat
  source : List Char
  page : Nat
  typ : List Char
  content : List Char
  caption : Option (List Char)
  img_path : Option (List Char)
  parent : Option Nat
  label : Option (List Char)
deriving DecidableEq

/-- A structural text unit from the converter's chunker, with the page
provenance `ch.meta.doc_items[0].prov[0].page_no`. -/
structure TextUnit where
  page : Nat
  text : List Char
deriving DecidableEq

/-- A structural table: provenance flag, page, exported markdown. -/
structure TableUnit where
  hasProv : Bool
  page : Nat
  md : List Char
deriving DecidableEq

/-- A structural picture: provenance flag, page, raw OCR text of its
rendered image. -/
structure PictureUnit where
  hasProv : Bool
  page : Nat
  ocrText : List Char
deriving DecidableEq

/-- One parsed PDF: stem, structural units, page count, raw page OCR. -/
structure DocModel where
  stem : List Char
  textUnits : List TextUnit
  numPages : Nat
  pageOcrText : Nat → List Char
  tables : List TableUnit
  pictures : List PictureUnit

/-- The captioning collaborator (Gemini), already `.strip()`-ed:
a one-sentence caption from a table's markdown, and one from an image file. -/
structure Collab where
  tableCaption : List Char → List Char
  imageCaption : List Char → List Char

/-- Text/equation pass (ingest.py lines 139-147): one row per chunker unit. -/
def textPass (stem : List Char) (units : List TextUnit) (cid : Nat) :
    List ChunkRow × Nat :=
  match units with
  | [] => ([], cid)
  | u :: us =>
    let txt := pyclean u.text
    let rest := textPass stem us (cid + 1)
    (⟨cid + 1, stem, u.page, classify txt, txt, none, none, none, none⟩ :: rest.1, rest.2)

/-- The page-fallback existence query
`SELECT 1 FROM chunks WHERE source=? AND page=? AND type='text'`. -/
def hasTextChunk (rows : List ChunkRow) (stem : List Char) (p : Nat) : Bool :=
  rows.any (fun r => r.source = stem && r.page = p && r.typ = "text".toList)

/-- OCR page-fallback pass (ingest.py lines 149-159): one `page` row per
page without a text chunk; inserted rows stay visible to later queries. -/
def pagePass (doc : DocModel) (rows : List ChunkRow) (pages : List Nat) (cid : Nat) :
    List ChunkRow × Nat :=
  match pages with
  | [] => ([], cid)
  | p :: ps =>
    if hasTextChunk rows doc.stem p then pagePass doc rows ps cid
    else
      let row : ChunkRow :=
        ⟨cid + 1, doc.stem, p, "page".toList, pyclean (doc.pageOcrText p),
         none, none, none, none⟩
      let rest := pagePass doc (rows ++ [row]) ps (cid + 1)
      (row :: rest.1, rest.2)

/-- Table pass (ingest.py lines 161-175): skip tables without provenance,
synthesize a `table{n}:` marker when `FIG_TBL` finds none in the markdown,
caption via the collaborator, compute `label_key` from the caption. -/
def tablePass (collab : Collab) (stem : List Char) (tbls : List TableUnit)
    (tblNo : Nat) (cid : Nat) : List ChunkRow × Nat :=
  match tbls with
  | [] => ([], cid)
  | t :: ts =>
    if t.hasProv then
      let n := tblNo + 1
      let md := if figtblSearch t.md then t.md
                else "table".toList ++ natDigits n ++ ":\n".toList ++ t.md
      let cap := "table".toList ++ natDigits n ++ ": ".toList ++ collab.tableCaption md
      let rest := tablePass collab stem ts n (cid + 1)
      (⟨cid + 1, stem, t.page, "table".toList, md, some cap, none, none, label_key cap⟩
        :: rest.1, rest.2)
    else tablePass collab stem ts tblNo cid

/-- Image pass (ingest.py lines 177-192): `i` enumerates all pictures from
1, `figNo` counts only those with provenance; content is the cleaned OCR
text, the label key comes from a synthesized `fig{n}:` marker. -/
def picturePass (stem : List Char) (pics : List PictureUnit)
    (i : Nat) (figNo : Nat) (cid : Nat) : List ChunkRow × Nat :=
  match pics with
  | [] => ([], cid)
  | pic :: ps =>
    if pic.hasProv then
      let n := figNo + 1
      let fp := "_pics/".toList ++ stem ++ "/fig".toList ++ natDigits n
                ++ "_p".toList ++ natDigits pic.page ++ "_".toList ++ natDigits i
                ++ ".png".toList
      let rest := picturePass stem ps (i + 1) n (cid + 1)
      (⟨cid + 1, stem, pic.page, "image".toList, pyclean pic.ocrText,
        none, some fp, none, label_key ("fig".toList ++ natDigits n ++ ":".toList)⟩
        :: rest.1, rest.2)
    else picturePass stem ps (i + 1) figNo cid

/-- The four per-document passes in order (ingest.py lines 133-193). -/
def ingestDoc (collab : Collab) (doc : DocModel) (rows : List ChunkRow) (cid : Nat) :
    List ChunkRow × Nat :=
  let t := textPass doc.stem doc.textUnits cid
  let pg := pagePass doc (rows ++ t.1) (List.range' 1 doc.numPages) t.2
  let tb := tablePass collab doc.stem doc.tables 0 pg.2
  let pc := picturePass doc.stem doc.pictures 1 0 tb.2
  (t.1 ++ pg.1 ++ tb.1 ++ pc.1, pc.2)

/-- All documents in sequence, sharing the id counter and the registry. -/
def ingestDocs (collab : Collab) (docs : List DocModel) (rows : List ChunkRow)
    (cid : Nat) : List ChunkRow × Nat :=
  match docs with
  | [] => ([], cid)
  | d :: ds =>
    let r1 := ingestDoc collab d rows cid
    let rs := ingestDocs collab ds (rows ++ r1.1) r1.2
    (r1.1 ++ rs.1, rs.2)

/-- Deferred captioning pass (ingest.py lines 195-202): every image row
gets its caption from the collaborator, keyed by the stored image path. -/
def applyImageCaptions (collab : Collab) (rows : List ChunkRow) : List ChunkRow :=
  rows.map (fun r =>
    if r.typ = "image".toList then
      { r with caption := some (collab.imageCaption (r.img_path.getD [])) }
    else r)

/-- The chunk-emission skeleton of `run_ingestion` (ingest.py lines
130-203): the id counter starts at 0, each INSERT uses it pre-incremented. -/
def run_ingestion (collab : Collab) (docs : List DocModel) : List ChunkRow :=
  applyImageCaptions collab (ingestDocs collab docs [] 0).1

/-- rag.py STOP_WORDS. -/
def STOP_WORDS : List (List Char) :=
  ["figure".toList, "fig".toList, "image".toList, "diagram".toList, "picture".toList,
   "table".toList, "chart".toList, "plot".toList,
   "of".toList, "for".toList, "showing".toList, "displaying".toList,
   "the".toList, "a".toList, "an".toList]

/-- Worker for `runsBy`. -/
def runsByAux (p : Char → Bool) : List Char → List Char → List (List Char)
  | [], acc => if acc.isEmpty then [] else [acc.reverse]
  | c :: cs, acc =>
    if p c then runsByAux p cs (c :: acc)
    else if acc.isEmpty then runsByAux p cs []
    else acc.reverse :: runsByAux p cs []

/-- The maximal nonempty runs of characters satisfying `p`: the pieces of a
split on the complementary separator class, empty boundary pieces removed. -/
def runsBy (p : Char → Bool) (cs : List Char) : List (List Char) := runsByAux p cs []

/-- rag.py `clean_query`: `re.split(r'\W+', q.lower())`, keep the tokens
that are nonempty (the `if t` filter, which removes exactly `re.split`'s
empty boundary pieces) and not stop words, rejoin with single spaces, and
when that leaves the empty string fall back to the original `q`. -/
def clean_query (q : List Char) : List Char :=
  let keep := (runsBy isWordChar (lowerL q)).filter (fun t => !(STOP_WORDS.contains t))
  let joined := List.intercalate " ".toList keep
  if joined.isEmpty then q else joined

/-- Python `html.escape(s)` (quote=True) on one character. -/
def html_escape_char (c : Char) : List Char :=
  if c = '&' then "&amp;".toList
  else if c = '<' then "&lt;".toList
  else if c = '>' then "&gt;".toList
  else if c = '"' then "&quot;".toList
  else if c = Char.ofNat 39 then "&#x27;".toList
  else [c]

/-- Python `html.escape(s)` with quoting: the five sequential `str.replace`
calls touch disjoint characters and none introduces a later-replaced one,
so they amount to one character-wise substitution. -/
def html_escape (cs : List Char) : List Char := (cs.map html_escape_char).flatten

/-- A Python `str.splitlines` boundary character (`\r\n` handled apart). -/
def isLineBreak (c : Char) : Bool :=
  c = '\n' || c = '\r' || c = '\x0b' || c = '\x0c' || c = '\x1c' ||
  c = '\x1d' || c = '\x1e' || c = '\x85' || c = '\u2028' || c = '\u2029'

/-- Worker for `pySplitlines`. -/
def pySplitlinesAux : List Char → List Char → List (List Char)
  | '\r' :: '\n' :: cs, acc => acc.reverse :: pySplitlinesAux cs []
  | c :: cs, acc =>
    if isLineBreak c then acc.reverse :: pySplitlinesAux cs []
    else pySplitlinesAux cs (c :: acc)
  | [], acc => if acc.isEmpty then [] else [acc.reverse]

/-- Python `str.splitlines`: split at line boundaries (`\r\n` counts as
one); a terminal boundary yields no trailing empty line. -/
def pySplitlines (cs : List Char) : List (List Char) := pySplitlinesAux cs []

/-- Python `str.strip("|")`-style stripping of one character. -/
def stripChar (x : Char) (cs : List Char) : List Char :=
  ((cs.dropWhile (fun c => c == x)).reverse.dropWhile (fun c => c == x)).reverse

/-- Python `str.split("|")`: split at every pipe, keeping empty pieces. -/
def splitOnPipe : List Char → List (List Char)
  | [] => [[]]
  | c :: cs =>
    if c = '|' then [] :: splitOnPipe cs
    else
      match splitOnPipe cs with
      | t :: ts => (c :: t) :: ts
      | [] => [[c]]

/-- The characters of the class `[:\-| ]`. -/
def isSepClass (c : Char) : Bool := c = ':' || c = '-' || c = '|' || c = ' '

/-- `re.fullmatch(r"\s*[:\-| ]+\s*", b)` (rag.py line 50).  On an
all-whitespace string the leading `\s*` backtracks until a space can feed
the `+`; otherwise the three greedy pieces need no backtracking because a
character failing the middle class also fails `\s` or ends the match. -/
def sepFullmatch (b : List Char) : Bool :=
  if b.all isPySpace then b.contains ' '
  else
    let s1 := b.dropWhile isPySpace
    !(s1.takeWhile isSepClass).isEmpty && (s1.dropWhile isSepClass).all isPySpace

/-- One `<th>` cell of the header row (rag.py lines 45-47). -/
def thCell (c : List Char) : List Char :=
  "<th style='border:1px solid #999;padding:4px;'>".toList ++ html_escape c
    ++ "</th>".toList

/-- One `<td>` cell of a body row (rag.py lines 52-54). -/
def tdCell (c : List Char) : List Char :=
  "<td style='border:1px solid #999;padding:4px;'>".toList ++ html_escape c
    ++ "</td>".toList

/-- rag.py `split(row)`: trim outer pipes, split on `|`, strip each cell. -/
def rowCells (row : List Char) : List (List Char) :=
  (splitOnPipe (stripChar '|' row)).map stripWs

/-- One `<tr>` body row. -/
def bodyRow (b : List Char) : List Char :=
  "<tr>".toList ++ ((rowCells b).map tdCell).flatten ++ "</tr>".toList

/-- rag.py `md_table_to_html`: keep the stripped lines containing a pipe;
none means a `<pre>` fallback, else the first is the header, the remaining
non-separator lines the body. -/
def md_table_to_html (md : List Char) : List Char :=
  let lines := ((pySplitlines md).filter (fun l => l.contains '|')).map stripWs
  match lines with
  | [] => "<pre>".toList ++ html_escape md ++ "</pre>".toList
  | headRow :: body =>
    let headHtml := "<thead><tr>".toList ++ ((rowCells headRow).map thCell).flatten
                      ++ "</tr></thead>".toList
    let rows := headHtml :: (body.filter (fun b => !(sepFullmatch b))).map bodyRow
    "<table style='border-collapse:collapse;width:100%;margin:.6em 0;border:1px solid #999;'>".toList
      ++ rows.flatten ++ "</table>".toList

/-- `md_table_to_html` on Lean strings. -/
def md_table_to_htmlS (s : String) : String := (md_table_to_html s.toList).asString

/-- A match of the answer engine's label regex
`\b(fig(?:ure)?|table)\s*([ivxlcdm\d]+[a-z]?)\b` (rag.py lines 87-88 and
101-105), split into head (group 1), the `\s*` whitespace, the numeral run
and the optional suffix letter (together group 2), and the unmatched rest. -/
structure LabelM where
  head : List Char
  ws : List Char
  num : List Char
  suff : List Char
  rest : List Char
deriving DecidableEq

/-- Group 0 of the match: the matched text. -/
def LabelM.g0 (m : LabelM) : List Char := m.head ++ m.ws ++ m.num ++ m.suff

/-- Case-insensitive literal prefix test. -/
def ciPrefix (pat : List Char) (cs : List Char) : Bool :=
  pat.isPrefixOf (lowerL (cs.take pat.length))

/-- `\s*([ivxlcdm\d]+[a-z]?)\b` at `r`, case-insensitively; returns
`(ws, num, suff, rest)`.  Backtracking note: giving characters back from
the greedy numeral run always leaves a word character right before the
required `\b`, so only the maximal run — with, then without, a suffix
letter — can complete a match.  `suffixSplit` handles what follows the
numeral run: the optional `[a-z]` suffix and then the `\b` boundary. -/
def suffixSplit : List Char → Option (List Char × List Char)
  | [] => some ([], [])
  | [c] =>
    if isLowerAlpha c.toLower then some ([c], [])
    else if isWordChar c then none
    else some ([], [c])
  | c :: d :: r3 =>
    if isLowerAlpha c.toLower then
      if isWordChar d then none else some ([c], d :: r3)
    else if isWordChar c then none
    else some ([], c :: d :: r3)

/-- `\s*([ivxlcdm\d]+[a-z]?)\b` at `r`, case-insensitively; returns
`(ws, num, suff, rest)`. -/
def numTailB (r : List Char) : Option (List Char × List Char × List Char × List Char) :=
  let ws := r.takeWhile isPySpace
  let r1 := r.dropWhile isPySpace
  let num := r1.takeWhile (fun c => isNumClass c.toLower)
  if num.isEmpty then none
  else
    (suffixSplit (r1.dropWhile (fun c => isNumClass c.toLower))).map
      (fun sr => (ws, num, sr.1, sr.2))

/-- Try the label regex at the current position.  `prevWord` is whether the
preceding character is a word character: every head alternative starts
with a word character, so the leading `\b` demands `prevWord = false`.
After a `figure` head whose tail fails the engine backtracks to `fig`.
`mkLabelM` assembles the match record from head and tail pieces. -/
def mkLabelM (hd : List Char) (t4 : List Char × List Char × List Char × List Char) :
    LabelM :=
  ⟨hd, t4.1, t4.2.1, t4.2.2.1, t4.2.2.2⟩

/-- Try the label regex at the current position; see `mkLabelM`'s comment. -/
def matchLabelAt (prevWord : Bool) (cs : List Char) : Option LabelM :=
  if prevWord then none
  else if ciPrefix "figure".toList cs then
    match numTailB (cs.drop 6) with
    | some t4 => some (mkLabelM (cs.take 6) t4)
    | none =>
      match numTailB (cs.drop 3) with
      | some t4 => some (mkLabelM (cs.take 3) t4)
      | none => none
  else if ciPrefix "fig".toList cs then
    match numTailB (cs.drop 3) with
    | some t4 => some (mkLabelM (cs.take 3) t4)
    | none => none
  else if ciPrefix "table".toList cs then
    match numTailB (cs.drop 5) with
    | some t4 => some (mkLabelM (cs.take 5) t4)
    | none => none
  else none

/-- Scan left to right for the leftmost label match (`re.search`). -/
def labelSearchAux (prevWord : Bool) : List Char → Option LabelM
  | [] => none
  | c :: cs =>
    match matchLabelAt prevWord (c :: cs) with
    | some m => some m
    | none => labelSearchAux (isWordChar c) cs

/-- `re.search(r'\b(fig(?:ure)?|table)\s*([ivxlcdm\d]+[a-z]?)\b', s)`. -/
def labelSearch (s : List Char) : Option LabelM := labelSearchAux false s

/-- Python substring containment `sub in s`. -/
def containsSub (sub : List Char) : List Char → Bool
  | [] => sub.isEmpty
  | c :: cs => sub.isPrefixOf (c :: cs) || containsSub sub cs

/-- A retrieved index entry (LangChain document with its chunk_id). -/
structure Hit where
  chunk_id : Nat
  page_content : List Char
deriving DecidableEq

/-- One row of the fetch callback
`fetch(cid) -> (src, page, type, content, caption, img_path)`. -/
structure FetchRow where
  src : List Char
  page : Nat
  typ : List Char
  content : List Char
  caption : Option (List Char)
  img_path : List Char
deriving DecidableEq

/-- The RagChat collaborators: `vectordb.similarity_search` (the ranked
hit list for a query under a type filter — `k` only truncates it, and the
code reads just the head), the SQLite fetch, the fallback LLM answer
function, and `b64_img`'s file read. -/
structure RagEnv where
  search : List Char → List Char → List Hit
  fetch : Nat → FetchRow
  llm : List Char → List Char
  b64 : List Char → List Char

/-- Python f-string interpolation of a nullable DB value. -/
def pyStrOpt : Option (List Char) → List Char
  | none => "None".toList
  | some s => s

/-- rag.py `RagChat._top_hit`: clean the query, search (k=1), take the top
document if any. -/
def top_hit (env : RagEnv) (query kind : List Char) : Option Hit :=
  (env.search (clean_query query) kind).head?

/-- The image figure markup shared by `_best_match_block` and
`_inject_by_label`. -/
def renderImage (env : RagEnv) (r : FetchRow) : List Char :=
  "<figure><img src='data:image/png;base64,".toList ++ env.b64 r.img_path
  ++ "' alt='".toList ++ pyStrOpt r.caption
  ++ "' style='max-width:100%;height:auto;'><figcaption>".toList ++ pyStrOpt r.caption
  ++ "</figcaption></figure>".toList

/-- The collapsible table markup shared by `_best_match_block` and
`_inject_by_label`. -/
def renderTable (r : FetchRow) : List Char :=
  "<details open><summary>".toList ++ pyStrOpt r.caption ++ "</summary>".toList
  ++ md_table_to_html r.content ++ "</details>".toList

/-- Fetch the hit's row and render it by kind. -/
def renderHit (env : RagEnv) (kind : List Char) (hit : Hit) : List Char :=
  let r := env.fetch hit.chunk_id
  if kind = "image".toList then renderImage env r else renderTable r

/-- rag.py `RagChat._best_match_block`. -/
def best_match_block (env : RagEnv) (query kind : List Char) : List Char :=
  match top_hit env query kind with
  | none => "<em>No ".toList ++ kind ++ " matches that description.</em>".toList
  | some hit => renderHit env kind hit

/-- The class `[ivxlcdm0-9a-z]` under `re.I`: ASCII letters and digits. -/
def isKeyClass (c : Char) : Bool := c.toLower.isDigit || isLowerAlpha c.toLower

/-- rag.py `RagChat._inject_by_label`: `kind or (...)` recomputes the kind
when the argument is `None` (or empty); the key is the label's last
whitespace-separated token with everything outside `[ivxlcdm0-9a-z]`
(case-insensitively) removed. -/
def inject_by_label (env : RagEnv) (label : List Char) (kindArg : Option (List Char)) :
    List Char :=
  let defaultKind := if "fig".toList.isPrefixOf (lowerL label) then "image".toList
                     else "table".toList
  let kind := match kindArg with
    | some k => if k.isEmpty then defaultKind else k
    | none => defaultKind
  let key := ((runsBy (fun c => !(isPySpace c)) label).getLastD []).filter isKeyClass
  match top_hit env key kind with
  | none => label
  | some hit => renderHit env kind hit

/-- Replace `\n` by `<br>` (Python `str.replace`, rag.py line 100). -/
def replaceNl : List Char → List Char
  | [] => []
  | c :: cs => (if c = '\n' then "<br>".toList else [c]) ++ replaceNl cs

/-- What a successful `suffixSplit` returns: the input splits as suffix
followed by rest, the suffix being empty or one letter. -/
theorem suffixSplit_decomp {l suff rest : List Char}
    (h : suffixSplit l = some (suff, rest)) :
    l = suff ++ rest ∧
      (suff = [] ∨ ∃ a, suff = [a] ∧ isLowerAlpha a.toLower = true) := by
  rcases l with _ | ⟨c, _ | ⟨d, r3⟩⟩
  · simp only [suffixSplit, Option.some.injEq, Prod.mk.injEq] at h
    obtain ⟨h1, h2⟩ := h
    subst h1; subst h2
    exact ⟨rfl, Or.inl rfl⟩
  · simp only [suffixSplit] at h
    split at h
    · rename_i hc
      simp only [Option.some.injEq, Prod.mk.injEq] at h
      obtain ⟨h1, h2⟩ := h
      subst h1; subst h2
      exact ⟨rfl, Or.inr ⟨c, rfl, hc⟩⟩
    · split at h
      · exact absurd h (by simp)
      · simp only [Option.some.injEq, Prod.mk.injEq] at h
        obtain ⟨h1, h2⟩ := h
        subst h1; subst h2
        exact ⟨rfl, Or.inl rfl⟩
  · simp only [suffixSplit] at h
    split at h
    · rename_i hc
      split at h
      · exact absurd h (by simp)
      · simp only [Option.some.injEq, Prod.mk.injEq] at h
        obtain ⟨h1, h2⟩ := h
        subst h1; subst h2
        exact ⟨rfl, Or.inr ⟨c, rfl, hc⟩⟩
    · split at h
      · exact absurd h (by simp)
      · simp only [Option.some.injEq, Prod.mk.injEq] at h
        obtain ⟨h1, h2⟩ := h
        subst h1; subst h2
        exact ⟨rfl, Or.inl rfl⟩

/-- A true `ciPrefix pat cs` means `cs` is at least as long as `pat` and
lowercases to `pat` on that prefix. -/
theorem ciPrefix_spec {pat cs : List Char} (h : ciPrefix pat cs = true) :
    pat.length ≤ cs.length ∧ lowerL (cs.take pat.length) = pat := by
  have hp : pat <+: lowerL (cs.take pat.length) := List.isPrefixOf_iff_prefix.mp h
  have hlen := hp.length_le
  have hlen2 : (lowerL (cs.take pat.length)).length = min pat.length cs.length := by
    simp [lowerL]
  rw [hlen2] at hlen
  refine ⟨by omega, ?_⟩
  exact (hp.eq_of_length (by rw [hlen2]; omega)).symm

/-- What a successful `numTailB` returns: the input decomposes into the
whitespace run, the nonempty numeral run, the optional suffix letter, and
the rest. -/
theorem numTailB_decomp {r ws num suff rest : List Char}
    (h : numTailB r = some (ws, num, suff, rest)) :
    r = ws ++ num ++ suff ++ rest ∧ ws = r.takeWhile isPySpace ∧
    num = (r.dropWhile isPySpace).takeWhile (fun c => isNumClass c.toLower) ∧
    num ≠ [] ∧ (suff = [] ∨ ∃ a, suff = [a] ∧ isLowerAlpha a.toLower = true) := by
  have hsplit : r.takeWhile isPySpace ++ r.dropWhile isPySpace = r :=
    List.takeWhile_append_dropWhile ..
  have hsplit2 :
      (r.dropWhile isPySpace).takeWhile (fun c => isNumClass c.toLower) ++
        (r.dropWhile isPySpace).dropWhile (fun c => isNumClass c.toLower) =
        r.dropWhile isPySpace :=
    List.takeWhile_append_dropWhile ..
  simp only [numTailB] at h
  split at h
  · exact absurd h (by simp)
  · rename_i hne
    cases hss : suffixSplit
        ((r.dropWhile isPySpace).dropWhile (fun c => isNumClass c.toLower)) with
    | none => rw [hss] at h; exact absurd h (by simp)
    | some sr =>
      rw [hss] at h
      simp only [Option.map_some, Option.map, Option.some.injEq, Prod.mk.injEq] at h
      obtain ⟨h1, h2, h3, h4⟩ := h
      subst h1; subst h2; subst h3; subst h4
      obtain ⟨hsr, hsuff⟩ := @suffixSplit_decomp _ sr.1 sr.2 (by rw [hss])
      refine ⟨?_, rfl, rfl, by simpa using hne, hsuff⟩
      conv_lhs => rw [← hsplit, ← hsplit2]
      rw [hsr]
      simp [List.append_assoc]

/-- Head and tail of a successful position match: the scanned string splits
as the matched text and the rest, the head keeps its source length, the
numeral run is nonempty. -/
theorem mkLabelM_decomp {cs : List Char} {k : Nat}
    {t4 : List Char × List Char × List Char × List Char}
    (hq : numTailB (cs.drop k) = some t4) (hk : k ≤ cs.length) :
    cs = (mkLabelM (cs.take k) t4).g0 ++ (mkLabelM (cs.take k) t4).rest ∧
      (mkLabelM (cs.take k) t4).head.length = k ∧ (mkLabelM (cs.take k) t4).num ≠ [] := by
  obtain ⟨ws, num, suff, rest⟩ := t4
  obtain ⟨hd, -, -, hnum, -⟩ := numTailB_decomp hq
  refine ⟨?_, by simp [mkLabelM, List.length_take]; omega, hnum⟩
  have hcs : cs.take k ++ (ws ++ num ++ suff ++ rest) = cs := by
    rw [← hd, List.take_append_drop]
  conv_lhs => rw [← hcs]
  simp [mkLabelM, LabelM.g0, List.append_assoc]

/-- A successful match decomposes the scanned string into the matched text
and the rest, with a head of length at least 3. -/
theorem matchLabelAt_decomp {p : Bool} {cs : List Char} {m : LabelM}
    (h : matchLabelAt p cs = some m) :
    cs = m.g0 ++ m.rest ∧ 3 ≤ m.head.length ∧ m.num ≠ [] := by
  simp only [matchLabelAt] at h
  split at h
  · exact absurd h (by simp)
  split at h
  · rename_i hci
    cases hq : numTailB (cs.drop 6) with
    | some t4 =>
      rw [hq] at h
      simp only [Option.some.injEq] at h
      subst h
      obtain ⟨h1, h2, h3⟩ := mkLabelM_decomp hq (by have := (ciPrefix_spec hci).1; simpa using this)
      exact ⟨h1, by omega, h3⟩
    | none =>
      rw [hq] at h
      cases hq3 : numTailB (cs.drop 3) with
      | some t4 =>
        rw [hq3] at h
        simp only [Option.some.injEq] at h
        subst h
        obtain ⟨h1, h2, h3⟩ := mkLabelM_decomp hq3
          (by have := (ciPrefix_spec hci).1; simp at this; omega)
        exact ⟨h1, by omega, h3⟩
      | none => rw [hq3] at h; exact absurd h (by simp)
  split at h
  · rename_i hci
    cases hq : numTailB (cs.drop 3) with
    | some t4 =>
      rw [hq] at h
      simp only [Option.some.injEq] at h
      subst h
      obtain ⟨h1, h2, h3⟩ := mkLabelM_decomp hq (by have := (ciPrefix_spec hci).1; simpa using this)
      exact ⟨h1, by omega, h3⟩
    | none => rw [hq] at h; exact absurd h (by simp)
  split at h
  · rename_i hci
    cases hq : numTailB (cs.drop 5) with
    | some t4 =>
      rw [hq] at h
      simp only [Option.some.injEq] at h
      subst h
      obtain ⟨h1, h2, h3⟩ := mkLabelM_decomp hq (by have := (ciPrefix_spec hci).1; simpa using this)
      exact ⟨h1, by omega, h3⟩
    | none => rw [hq] at h; exact absurd h (by simp)
  · exact absurd h (by simp)

/-- The rest of a match is strictly shorter than the scanned string. -/
theorem matchLabelAt_rest_lt {p : Bool} {cs : List Char} {m : LabelM}
    (h : matchLabelAt p cs = some m) : m.rest.length < cs.length := by
  obtain ⟨hd, hlen, hnum⟩ := matchLabelAt_decomp h
  have hg : m.g0.length ≠ 0 := by
    simp only [LabelM.g0, List.length_append]
    omega
  rw [hd, List.length_append]
  omega

/-- `re.sub` of the label pattern over the generated answer (rag.py lines
101-105): replace each non-overlapping match with
`_inject_by_label(m.group(0))`; scanning resumes after a match, whose last
character (numeral or suffix letter) is always a word character. -/
def subLabels (env : RagEnv) (prevWord : Bool) (cs : List Char) : List Char :=
  match h : matchLabelAt prevWord cs with
  | some m => inject_by_label env m.g0 none ++ subLabels env true m.rest
  | none =>
    match cs with
    | [] => []
    | c :: cs2 => c :: subLabels env (isWordChar c) cs2
  termination_by cs.length
  decreasing_by
    · exact matchLabelAt_rest_lt h
    · exact Nat.lt_succ_self _

/-- rag.py `RagChat.answer`: the four-branch routing over the lowercased
question. -/
def answer (env : RagEnv) (question : List Char) : List Char :=
  match labelSearch (lowerL question) with
  | some m =>
    let kind := if "fig".toList.isPrefixOf m.head then "image".toList else "table".toList
    inject_by_label env m.g0 (some kind)
  | none =>
    if containsSub "figure".toList (lowerL question)
        || containsSub "image".toList (lowerL question)
        || containsSub "diagram".toList (lowerL question)
        || containsSub "fig ".toList (lowerL question) then
      best_match_block env question "image".toList
    else if containsSub "table".toList (lowerL question) then
      best_match_block env question "table".toList
    else subLabels env false (replaceNl (env.llm question))

/-- `answer` on Lean strings. -/
def answerS (env : RagEnv) (s : String) : String := (answer env s.toList).asString

section ClaimA

/-- Spec-side mathematical-token predicate: one of the LaTeX-style macros
`\\frac`, `\\sum`, `\\int` occurs as a substring, or one of the operator
characters occurs. -/
def specMathToken (txt : List Char) : Prop :=
  "\\frac".toList <:+: txt ∨ "\\sum".toList <:+: txt ∨ "\\int".toList <:+: txt ∨
  '=' ∈ txt ∨ '∑' ∈ txt ∨ '∫' ∈ txt ∨ '√' ∈ txt ∨ '±' ∈ txt ∨ '×' ∈ txt ∨ '÷' ∈ txt

theorem mem_cons_comm {a b : Char} {l : List Char} : a ∈ b :: l ↔ b = a ∨ a ∈ l := by
  rw [List.mem_cons, eq_comm]

theorem mathAt_iff (c : Char) (cs : List Char) :
    mathAt (c :: cs) = true ↔
      ("\\frac".toList <+: c :: cs ∨ "\\sum".toList <+: c :: cs ∨
       "\\int".toList <+: c :: cs ∨
       c = '=' ∨ c = '∑' ∨ c = '∫' ∨ c = '√' ∨ c = '±' ∨ c = '×' ∨ c = '÷') := by
  simp only [mathAt, Bool.or_eq_true, List.isPrefixOf_iff_prefix, decide_eq_true_eq]
  tauto

/-- The regex search for a math token succeeds exactly when the spec-side
substring/character condition holds. -/
theorem mathSearch_iff (txt : List Char) : mathSearch txt = true ↔ specMathToken txt := by
  induction txt with
  | nil =>
    constructor
    · intro h; simp [mathSearch] at h
    · intro h
      rcases h with h|h|h|h|h|h|h|h|h|h <;>
        first
        | (rw [List.infix_nil] at h; exact absurd h (by decide))
        | exact absurd h (List.not_mem_nil _)
  | cons c cs ih =>
    rw [show mathSearch (c :: cs) = (mathAt (c :: cs) || mathSearch cs) from rfl]
    rw [Bool.or_eq_true, ih, mathAt_iff]
    unfold specMathToken
    simp only [List.infix_cons_iff, mem_cons_comm]
    tauto

end ClaimA

set_option maxRecDepth 20000 in
/-- C7: a cleaned structural text unit is classified `equation` iff it is
shorter than 300 characters and contains a recognized mathematical token
(a LaTeX-style macro `\\frac`, `\\sum` or `\\int`, or an operator symbol
`=`, `∑`, `∫`, `√`, `±`, `×`, `÷`); otherwise it is classified `text`.
In particular, a 250-character block containing `∑` is classified
`equation` and the same block without any math token is classified `text`. -/
theorem C7_equation_classifier (txt : List Char) :
    (classify txt = "equation".toList ↔ txt.length < 300 ∧ specMathToken txt) ∧
    (classify txt = "equation".toList ∨ classify txt = "text".toList) ∧
    classify (List.replicate 249 'a' ++ ['∑']) = "equation".toList ∧
    classify (List.replicate 250 'a') = "text".toList := by
  refine ⟨?_, ?_, by decide, by decide⟩
  · unfold classify
    split
    · rename_i hcond
      simp only [Bool.and_eq_true, decide_eq_true_eq] at hcond
      exact ⟨fun _ => ⟨hcond.1, (mathSearch_iff txt).mp hcond.2⟩, fun _ => rfl⟩
    · rename_i hcond
      constructor
      · intro he; exact absurd he (by decide)
      · rintro ⟨h1, h2⟩
        apply absurd ?_ hcond
        simp only [Bool.and_eq_true, decide_eq_true_eq]
        exact ⟨h1, (mathSearch_iff txt).mpr h2⟩
  · unfold classify
    split
    · exact Or.inl rfl
    · exact Or.inr rfl

/-- C8: query cleaning maps a non-empty question to a non-empty query: it
keeps the non-stop-word tokens and rejoins them, and when every token is a
stop word it returns the original input unchanged (so in particular
`clean_query "Figure of the diagram"` is the input itself), never the
empty string. -/
theorem C8_clean_query_nonempty :
    (∀ q : List Char, q ≠ [] → clean_query q ≠ []) ∧
    (∀ q : List Char,
      (runsBy isWordChar (lowerL q)).all (fun t => STOP_WORDS.contains t) = true →
      clean_query q = q) ∧
    clean_query "Figure of the diagram".toList = "Figure of the diagram".toList := by
  refine ⟨?_, ?_, by decide⟩
  · intro q hq
    simp only [clean_query]
    split
    · exact hq
    · rename_i hj
      simpa using hj
  · intro q hall
    simp only [clean_query]
    have hfil : (runsBy isWordChar (lowerL q)).filter
        (fun t => !(STOP_WORDS.contains t)) = [] := by
      rw [List.filter_eq_nil_iff]
      intro t ht
      have ht2 := List.all_eq_true.mp hall t ht
      rw [ht2]
      decide
    rw [hfil]
    simp [List.intercalate]

set_option maxRecDepth 20000 in
/-- C9: the table renderer degrades to escaped preformatted text when no
line of the markdown contains a pipe, and otherwise produces a bordered
HTML table; on the canonical example the output contains a `<table`
element and a `<td>` cell holding `1`. -/
theorem C9_table_renderer (md : List Char) :
    ((∀ l ∈ pySplitlines md, l.contains '|' = false) →
      md_table_to_html md = "<pre>".toList ++ html_escape md ++ "</pre>".toList) ∧
    ((∃ l ∈ pySplitlines md, l.contains '|' = true) →
      "<table style='border-collapse:collapse;width:100%;margin:.6em 0;border:1px solid #999;'>".toList
          <+: md_table_to_html md ∧
        "</table>".toList <:+ md_table_to_html md) ∧
    "<table".toList <:+: md_table_to_html "| A | B |\n|---|---|\n| 1 | 2 |".toList ∧
    ">1</td>".toList <:+: md_table_to_html "| A | B |\n|---|---|\n| 1 | 2 |".toList := by
  refine ⟨?_, ?_, by decide, by decide⟩
  · intro hno
    unfold md_table_to_html
    have h0 : (pySplitlines md).filter (fun l => l.contains '|') = [] := by
      rw [List.filter_eq_nil_iff]
      intro l hl
      rw [hno l hl]
      decide
    rw [h0]
    rfl
  · rintro ⟨l, hl, hcontains⟩
    unfold md_table_to_html
    have hne : (pySplitlines md).filter (fun l => l.contains '|') ≠ [] := by
      intro h0
      have hthis := List.filter_eq_nil_iff.mp h0 l hl
      rw [hcontains] at hthis
      exact hthis rfl
    cases hmap : ((pySplitlines md).filter (fun l => l.contains '|')).map stripWs with
    | nil =>
      exact absurd (by simpa using hmap) hne
    | cons a as =>
      simp only [hmap]
      exact ⟨List.prefix_append .., List.suffix_append ..⟩


section ClaimB

/-- The optional suffix returned by `matchSuffix` is empty or one
lowercase letter. -/
theorem matchSuffix_spec (l : List Char) :
    matchSuffix l = [] ∨ ∃ a, matchSuffix l = [a] ∧ isLowerAlpha a = true := by
  cases l with
  | nil => exact Or.inl rfl
  | cons c cs =>
    simp only [matchSuffix]
    split
    · exact Or.inr ⟨c, rfl, by assumption⟩
    · exact Or.inl rfl

/-- A successful `matchNumTail` yields a nonempty numeral that is entirely
roman letters or entirely digits, plus an optional suffix letter. -/
theorem matchNumTail_spec {r raw suff : List Char}
    (h : matchNumTail r = some (raw, suff)) :
    raw ≠ [] ∧ (raw.all isRomanChar = true ∨ raw.all Char.isDigit = true) ∧
    (suff = [] ∨ ∃ a, suff = [a] ∧ isLowerAlpha a = true) := by
  simp only [matchNumTail] at h
  split at h
  · rename_i hne
    simp only [Option.some.injEq, Prod.mk.injEq] at h
    obtain ⟨h1, h2⟩ := h
    subst h1
    refine ⟨hne, Or.inl ?_, h2 ▸ matchSuffix_spec _⟩
    exact List.all_eq_true.mpr fun c hc => List.mem_takeWhile_imp hc
  · split at h
    · rename_i hne
      simp only [Option.some.injEq, Prod.mk.injEq] at h
      obtain ⟨h1, h2⟩ := h
      subst h1
      refine ⟨hne, Or.inr ?_, h2 ▸ matchSuffix_spec _⟩
      exact List.all_eq_true.mpr fun c hc => List.mem_takeWhile_imp hc
    · exact absurd h (by simp)

/-- When the head character is whitespace-free but neither roman nor a
digit, the numeral tail cannot match. -/
theorem matchNumTail_cons_none {c : Char} {cs : List Char}
    (h1 : isPySpace c = false) (h2 : isRomanChar c = false)
    (h3 : Char.isDigit c = false) :
    matchNumTail (c :: cs) = none := by
  simp [matchNumTail, List.dropWhile_cons, h1, List.takeWhile_cons, h2, h3]

/-- Modelled from the claim's wording: after case folding and whitespace
removal, does the text start with a fig/figure/table token followed
directly by a roman or arabic numeral character? -/
def headIsNumeral : List Char → Bool
  | c :: _ => isNumClass c
  | [] => false

def startsWithLabelToken (t : List Char) : Bool :=
  ("figure".toList.isPrefixOf t && headIsNumeral (t.drop 6)) ||
  ("fig".toList.isPrefixOf t && headIsNumeral (t.drop 3)) ||
  ("table".toList.isPrefixOf t && headIsNumeral (t.drop 5))

/-- A successful `matchNumTail` means the first non-whitespace character
of the input is a numeral-class character. -/
theorem matchNumTail_filter_head {r : List Char} {pr : List Char × List Char}
    (h : matchNumTail r = some pr) :
    headIsNumeral (r.filter (fun c => !(isPySpace c))) = true := by
  induction r with
  | nil => simp [matchNumTail] at h
  | cons c cs ih =>
    by_cases hc : isPySpace c
    · have hmt : matchNumTail (c :: cs) = matchNumTail cs := by
        simp [matchNumTail, List.dropWhile_cons, hc]
      rw [hmt] at h
      simpa [List.filter_cons, hc] using ih h
    · by_cases hr : isRomanChar c
      · have : isNumClass c = true := by simp [isNumClass, hr]
        simp [List.filter_cons, hc, headIsNumeral, this]
      · by_cases hd : Char.isDigit c
        · have : isNumClass c = true := by simp [isNumClass, hd]
          simp [List.filter_cons, hc, headIsNumeral, this]
        · rw [matchNumTail_cons_none (by simpa using hc) (by simpa using hr)
            (by simpa using hd)] at h
          exact absurd h (by simp)

/-- Filtering out all whitespace absorbs a prior removal of spaces. -/
theorem filter_space_absorb (l : List Char) :
    (l.filter (fun c => c ≠ ' ')).filter (fun c => !(isPySpace c)) =
      l.filter (fun c => !(isPySpace c)) := by
  rw [List.filter_filter]
  apply List.filter_congr
  intro c _
  by_cases h : isPySpace c
  · simp [h]
  · have : c ≠ ' ' := by
      intro e
      subst e
      exact h (by decide)
    simp [h, this]

theorem bool_or3_left {a b c : Bool} (h : a = true) : (a || b || c) = true := by
  simp [h]

theorem bool_or3_mid {a b c : Bool} (h : b = true) : (a || b || c) = true := by
  simp [h]

theorem bool_or3_right {a b c : Bool} (h : c = true) : (a || b || c) = true := by
  simp [h]

theorem bool_and_intro {a b : Bool} (h1 : a = true) (h2 : b = true) : (a && b) = true := by
  simp [h1, h2]

/-- A successful `labelREmatch` means the whitespace-free form of the text
starts with a label token followed by a numeral character. -/
theorem labelREmatch_startsWith {t : List Char} {g : List Char × List Char × List Char}
    (h : labelREmatch t = some g) :
    startsWithLabelToken (t.filter (fun c => !(isPySpace c))) = true := by
  simp only [labelREmatch] at h
  split at h
  · rename_i hfig6
    obtain ⟨t6, rfl⟩ := List.isPrefixOf_iff_prefix.mp hfig6
    cases hq : matchNumTail (("figure".toList ++ t6).drop 6) with
    | some pr =>
      have hhead := matchNumTail_filter_head hq
      unfold startsWithLabelToken
      rw [List.filter_append]
      have hfigf : "figure".toList.filter (fun c => !(isPySpace c)) = "figure".toList := by
        decide
      rw [hfigf]
      have h1 : "figure".toList.isPrefixOf
          ("figure".toList ++ t6.filter (fun c => !(isPySpace c))) = true :=
        List.isPrefixOf_iff_prefix.mpr ⟨_, rfl⟩
      exact bool_or3_left (bool_and_intro h1 hhead)
    | none =>
      rw [hq] at h
      cases hq3 : matchNumTail (("figure".toList ++ t6).drop 3) with
      | some pr =>
        exfalso
        have he : ("figure".toList ++ t6).drop 3 = 'u' :: 'r' :: 'e' :: t6 := rfl
        rw [he, matchNumTail_cons_none (by decide) (by decide) (by decide)] at hq3
        exact absurd hq3 (by simp)
      | none => rw [hq3] at h; exact absurd h (by simp)
  · split at h
    · rename_i hfig3
      obtain ⟨t3, rfl⟩ := List.isPrefixOf_iff_prefix.mp hfig3
      cases hq : matchNumTail (("fig".toList ++ t3).drop 3) with
      | some pr =>
        have hhead := matchNumTail_filter_head hq
        unfold startsWithLabelToken
        rw [List.filter_append]
        have hfigf : "fig".toList.filter (fun c => !(isPySpace c)) = "fig".toList := by
          decide
        rw [hfigf]
        have h1 : "fig".toList.isPrefixOf
            ("fig".toList ++ t3.filter (fun c => !(isPySpace c))) = true :=
          List.isPrefixOf_iff_prefix.mpr ⟨_, rfl⟩
        exact bool_or3_mid (bool_and_intro h1 hhead)
      | none => rw [hq] at h; exact absurd h (by simp)
    · split at h
      · rename_i htab
        obtain ⟨t5, rfl⟩ := List.isPrefixOf_iff_prefix.mp htab
        cases hq : matchNumTail (("table".toList ++ t5).drop 5) with
        | some pr =>
          have hhead := matchNumTail_filter_head hq
          unfold startsWithLabelToken
          rw [List.filter_append]
          have htabf : "table".toList.filter (fun c => !(isPySpace c)) = "table".toList := by
            decide
          rw [htabf]
          have h1 : "table".toList.isPrefixOf
              ("table".toList ++ t5.filter (fun c => !(isPySpace c))) = true :=
            List.isPrefixOf_iff_prefix.mpr ⟨_, rfl⟩
          exact bool_or3_right (bool_and_intro h1 hhead)
        | none => rw [hq] at h; exact absurd h (by simp)
      · exact absurd h (by simp)

/-- C2: the label normalizer maps `"Figure IIIb"` to `fig3b`, `"Table II"`
to `table2` and `"fig 12"` to `fig12` (arabic numerals round-trip),
rejects `"random text"`, converts roman numerals by standard subtractive
notation (`"Figure XIV"` to `fig14`), and returns `none` whenever the
case-folded, whitespace-free input does not start with a fig/figure/table
token followed by a roman or arabic numeral. -/
theorem C2_label_normalizer :
    label_keyS "Figure IIIb" = some "fig3b" ∧
    label_keyS "Table II" = some "table2" ∧
    label_keyS "fig 12" = some "fig12" ∧
    label_keyS "random text" = none ∧
    label_keyS "Figure XIV" = some "fig14" ∧
    ∀ s : List Char,
      startsWithLabelToken ((lowerL s).filter (fun c => !(isPySpace c))) = false →
      label_key s = none := by
  refine ⟨by decide, by decide, by decide, by decide, by decide, ?_⟩
  intro s hns
  cases hk : label_key s with
  | none => rfl
  | some k =>
    exfalso
    simp only [label_key] at hk
    split at hk
    · exact absurd hk (by simp)
    · rename_i hse
      cases hm : labelREmatch ((lowerL s).filter (fun c => decide (c ≠ ' '))) with
      | none => rw [hm] at hk; exact absurd hk (by simp)
      | some g =>
        have := labelREmatch_startsWith hm
        rw [filter_space_absorb] at this
        rw [this] at hns
        exact absurd hns (by simp)

/-- Closed instance discharging C2's hypothesis at a concrete input. -/
theorem C2_label_normalizer_witness : label_key "hello world".toList = none :=
  C2_label_normalizer.2.2.2.2.2 "hello world".toList (by decide)

end ClaimB

/-- Closed instance discharging C8's hypothesis at a concrete input. -/
theorem C8_clean_query_nonempty_witness :
    clean_query "What is attention?".toList ≠ [] :=
  C8_clean_query_nonempty.1 "What is attention?".toList (by decide)

/-- Closed instance discharging C9's hypothesis at a concrete input. -/
theorem C9_table_renderer_witness :
    md_table_to_html "no pipes".toList =
      "<pre>".toList ++ html_escape "no pipes".toList ++ "</pre>".toList :=
  (C9_table_renderer "no pipes".toList).1 (by decide)

section ClaimC10

/-- The values of `ROMAN_MAP`. -/
def romanVals : List Int := [1, 5, 10, 50, 100, 500, 1000]

theorem romanVal_mem {c : Char} (h : isRomanChar c = true) : romanVal c ∈ romanVals := by
  simp only [isRomanChar, Bool.or_eq_true, decide_eq_true_eq] at h
  rcases h with ((((((h|h)|h)|h)|h)|h)|h) <;> subst h <;> decide

theorem romanVals_pos {a : Int} (h : a ∈ romanVals) : 1 ≤ a := by
  fin_cases h <;> norm_num

/-- Between any two distinct `ROMAN_MAP` values the larger is at least
twice the smaller — the fact that keeps the subtractive scan positive. -/
theorem romanVals_dominate {a b : Int} (ha : a ∈ romanVals) (hb : b ∈ romanVals)
    (h : a < b) : 2 * a ≤ b := by
  fin_cases ha <;> fin_cases hb <;> omega

/-- One scan step keeps the running total at least the previous value and
records a `ROMAN_MAP` value as the new previous value. -/
theorem romanStep_inv {tp : Int × Int} {c : Char} (hc : isRomanChar c = true)
    (h1 : tp.2 ≤ tp.1) (h2 : tp.2 = 0 ∨ tp.2 ∈ romanVals) :
    (romanStep tp c).2 ≤ (romanStep tp c).1 ∧ (romanStep tp c).2 ∈ romanVals := by
  have hv := romanVal_mem hc
  have hv1 := romanVals_pos hv
  simp only [romanStep]
  refine ⟨?_, hv⟩
  split
  · rename_i hlt
    rcases h2 with h0 | hmem
    · omega
    · have hdom := romanVals_dominate hv hmem hlt
      omega
  · rename_i hge
    have h0 : 0 ≤ tp.2 := by
      rcases h2 with h0 | hmem
      · omega
      · have := romanVals_pos hmem; omega
    omega

theorem romanFold_spec (l : List Char) :
    ∀ tp : Int × Int, (∀ c ∈ l, isRomanChar c = true) →
    tp.2 ≤ tp.1 → (tp.2 = 0 ∨ tp.2 ∈ romanVals) →
    (l.foldl romanStep tp).2 ≤ (l.foldl romanStep tp).1 ∧
      (l = [] ∨ (l.foldl romanStep tp).2 ∈ romanVals) := by
  induction l with
  | nil => intro tp _ h1 _; exact ⟨h1, Or.inl rfl⟩
  | cons c cs ih =>
    intro tp hall h1 h2
    rw [List.foldl_cons]
    have hc := hall c (List.mem_cons_self ..)
    obtain ⟨k1, k2⟩ := romanStep_inv hc h1 h2
    obtain ⟨m1, m2⟩ := ih (romanStep tp c)
      (fun d hd => hall d (List.mem_cons_of_mem _ hd)) k1 (Or.inr k2)
    refine ⟨m1, Or.inr ?_⟩
    rcases m2 with hnil | hmem
    · subst hnil
      simpa using k2
    · exact hmem

theorem roman_lower_id {c : Char} (h : isRomanChar c = true) : c.toLower = c := by
  simp only [isRomanChar, Bool.or_eq_true, decide_eq_true_eq] at h
  rcases h with ((((((h|h)|h)|h)|h)|h)|h) <;> subst h <;> decide

/-- `roman_to_int` of a nonempty all-roman string is at least 1. -/
theorem roman_to_int_pos {raw : List Char} (hne : raw ≠ [])
    (hall : ∀ c ∈ raw, isRomanChar c = true) : 1 ≤ roman_to_int raw := by
  unfold roman_to_int
  have hlow : lowerL raw = raw := by
    unfold lowerL
    have hmap : List.map Char.toLower raw = List.map id raw :=
      List.map_congr_left (fun c hc => roman_lower_id (hall c hc))
    rw [hmap, List.map_id]
  rw [hlow]
  have hall2 : ∀ c ∈ raw.reverse, isRomanChar c = true :=
    fun c hc => hall c (List.mem_reverse.mp hc)
  have hne2 : raw.reverse ≠ [] := by simpa using hne
  obtain ⟨h1, h2⟩ := romanFold_spec raw.reverse (0, 0) hall2 (by norm_num) (Or.inl rfl)
  rcases h2 with h0 | hmem
  · exact absurd h0 hne2
  · have := romanVals_pos hmem
    omega

theorem natDigitsGo_spec : ∀ (fuel n : Nat) (acc : List Char), n < fuel →
    ∃ d : List Char, natDigitsGo fuel n acc = d ++ acc ∧ d ≠ [] ∧
      ∀ c ∈ d, Char.isDigit c = true := by
  intro fuel
  induction fuel with
  | zero => intro n acc h; omega
  | succ f ih =>
    intro n acc h
    by_cases h10 : n < 10
    · refine ⟨[Char.ofNat (48 + n)], by simp [natDigitsGo, h10], by simp, ?_⟩
      intro c hc
      simp only [List.mem_singleton] at hc
      subst hc
      interval_cases n <;> decide
    · have hdiv : n / 10 < n := Nat.div_lt_self (by omega) (by omega)
      obtain ⟨d, hd, hne, hdig⟩ := ih (n / 10) (Char.ofNat (48 + n % 10) :: acc) (by omega)
      refine ⟨d ++ [Char.ofNat (48 + n % 10)], ?_, by simp, ?_⟩
      · simp [natDigitsGo, h10, hd]
      · intro c hc
        rcases List.mem_append.mp hc with h1 | h1
        · exact hdig c h1
        · simp only [List.mem_singleton] at h1
          subst h1
          have hm : n % 10 < 10 := Nat.mod_lt _ (by omega)
          set m := n % 10 with hmdef
          interval_cases m <;> decide

/-- Python decimal rendering of a natural number is a nonempty digit
string. -/
theorem natDigits_spec (n : Nat) :
    natDigits n ≠ [] ∧ ∀ c ∈ natDigits n, Char.isDigit c = true := by
  obtain ⟨d, hd, hne, hdig⟩ := natDigitsGo_spec (n + 1) n [] (by omega)
  unfold natDigits
  rw [hd, List.append_nil]
  exact ⟨hne, hdig⟩

theorem pyspace_toNat {c : Char} (h : isPySpace c = true) :
    c.toNat = 32 ∨ c.toNat = 9 ∨ c.toNat = 10 ∨ c.toNat = 13 ∨
      c.toNat = 11 ∨ c.toNat = 12 := by
  simp only [isPySpace, Bool.or_eq_true, decide_eq_true_eq] at h
  rcases h with (((((h|h)|h)|h)|h)|h) <;> subst h <;> decide

theorem upper_toNat {c : Char} (h : c.isUpper = true) :
    65 ≤ c.toNat ∧ c.toNat ≤ 90 := by
  simp only [Char.isUpper, Bool.and_eq_true, decide_eq_true_eq] at h
  exact ⟨h.1, h.2⟩

theorem digit_toNat {c : Char} (h : Char.isDigit c = true) :
    48 ≤ c.toNat ∧ c.toNat ≤ 57 := by
  simp only [Char.isDigit, Bool.and_eq_true, decide_eq_true_eq] at h
  exact ⟨h.1, h.2⟩

theorem lowerAlpha_toNat {c : Char} (h : isLowerAlpha c = true) :
    97 ≤ c.toNat ∧ c.toNat ≤ 122 := by
  simp only [isLowerAlpha, Bool.and_eq_true, decide_eq_true_eq, Char.le_def] at h
  exact ⟨h.1, h.2⟩

/-- A digit is neither whitespace, nor uppercase, nor a roman letter. -/
theorem digit_props {c : Char} (h : Char.isDigit c = true) :
    isPySpace c = false ∧ c.isUpper = false ∧ isRomanChar c = false := by
  obtain ⟨hb1, hb2⟩ := digit_toNat h
  refine ⟨?_, ?_, ?_⟩
  · cases hs : isPySpace c with
    | false => rfl
    | true => rcases pyspace_toNat hs with h0|h0|h0|h0|h0|h0 <;> omega
  · cases hu : c.isUpper with
    | false => rfl
    | true => obtain ⟨h1, h2⟩ := upper_toNat hu; omega
  · cases hr : isRomanChar c with
    | false => rfl
    | true =>
      exfalso
      simp only [isRomanChar, Bool.or_eq_true, decide_eq_true_eq] at hr
      rcases hr with ((((((h0|h0)|h0)|h0)|h0)|h0)|h0) <;> (subst h0; revert hb1 hb2; decide)

/-- A lowercase letter is neither whitespace nor uppercase. -/
theorem lowerAlpha_props {c : Char} (h : isLowerAlpha c = true) :
    isPySpace c = false ∧ c.isUpper = false := by
  obtain ⟨hb1, hb2⟩ := lowerAlpha_toNat h
  constructor
  · cases hs : isPySpace c with
    | false => rfl
    | true => rcases pyspace_toNat hs with h0|h0|h0|h0|h0|h0 <;> omega
  · cases hu : c.isUpper with
    | false => rfl
    | true => obtain ⟨h1, h2⟩ := upper_toNat hu; omega

/-- `labelREmatch`'s numeral and suffix groups come from `matchNumTail`. -/
theorem labelREmatch_numTail {t head raw suff : List Char}
    (h : labelREmatch t = some (head, raw, suff)) :
    ∃ r, matchNumTail r = some (raw, suff) := by
  simp only [labelREmatch] at h
  split at h
  · cases hq : matchNumTail (t.drop 6) with
    | some pr =>
      obtain ⟨raw0, suff0⟩ := pr
      rw [hq] at h
      simp only [Option.some.injEq, Prod.mk.injEq] at h
      obtain ⟨-, h2, h3⟩ := h
      exact ⟨t.drop 6, by rw [hq, h2, h3]⟩
    | none =>
      rw [hq] at h
      cases hq3 : matchNumTail (t.drop 3) with
      | some pr =>
        obtain ⟨raw0, suff0⟩ := pr
        rw [hq3] at h
        simp only [Option.some.injEq, Prod.mk.injEq] at h
        obtain ⟨-, h2, h3⟩ := h
        exact ⟨t.drop 3, by rw [hq3, h2, h3]⟩
      | none => rw [hq3] at h; exact absurd h (by simp)
  · split at h
    · cases hq : matchNumTail (t.drop 3) with
      | some pr =>
        obtain ⟨raw0, suff0⟩ := pr
        rw [hq] at h
        simp only [Option.some.injEq, Prod.mk.injEq] at h
        obtain ⟨-, h2, h3⟩ := h
        exact ⟨t.drop 3, by rw [hq, h2, h3]⟩
      | none => rw [hq] at h; exact absurd h (by simp)
    · split at h
      · cases hq : matchNumTail (t.drop 5) with
        | some pr =>
          obtain ⟨raw0, suff0⟩ := pr
          rw [hq] at h
          simp only [Option.some.injEq, Prod.mk.injEq] at h
          obtain ⟨-, h2, h3⟩ := h
          exact ⟨t.drop 5, by rw [hq, h2, h3]⟩
        | none => rw [hq] at h; exact absurd h (by simp)
      · exact absurd h (by simp)

/-- C10: every key the label normalizer returns is whitespace-free and
lowercase, begins with `fig` or `table`, continues with a nonempty run of
decimal digits (no roman-numeral letters), and ends with at most one
trailing lowercase letter. -/
theorem C10_key_shape (s k : List Char) (h : label_key s = some k) :
    (∀ c ∈ k, isPySpace c = false) ∧ (∀ c ∈ k, c.isUpper = false) ∧
    ∃ hd num suf, k = hd ++ num ++ suf ∧
      (hd = "fig".toList ∨ hd = "table".toList) ∧
      num ≠ [] ∧ (∀ c ∈ num, Char.isDigit c = true) ∧
      (∀ c ∈ num, isRomanChar c = false) ∧
      (suf = [] ∨ ∃ a, suf = [a] ∧ isLowerAlpha a = true) := by
  simp only [label_key] at h
  split at h
  · exact absurd h (by simp)
  · cases hm : labelREmatch ((lowerL s).filter (fun c => decide (c ≠ ' '))) with
    | none => rw [hm] at h; exact absurd h (by simp)
    | some g =>
      obtain ⟨head, raw, suff⟩ := g
      rw [hm] at h
      simp only [Option.some.injEq] at h
      obtain ⟨r, hr⟩ := labelREmatch_numTail hm
      obtain ⟨hraw_ne, hraw_kind, hsuff⟩ := matchNumTail_spec hr
      have hnum : ∀ num0 : List Char,
          num0 = (if raw ≠ [] && raw.all Char.isDigit then raw
                  else pyIntStr (roman_to_int raw)) →
          num0 ≠ [] ∧ ∀ c ∈ num0, Char.isDigit c = true := by
        intro num0 hdef
        by_cases hcond : (raw ≠ [] && raw.all Char.isDigit) = true
        · rw [hdef, if_pos hcond]
          simp only [Bool.and_eq_true, decide_eq_true_eq] at hcond
          exact ⟨hcond.1, fun c hc => List.all_eq_true.mp hcond.2 c hc⟩
        · rw [hdef, if_neg hcond]
          have hroman : raw.all isRomanChar = true := by
            rcases hraw_kind with hk | hk
            · exact hk
            · exfalso
              apply hcond
              simp only [Bool.and_eq_true, decide_eq_true_eq]
              exact ⟨hraw_ne, hk⟩
          have hpos : 1 ≤ roman_to_int raw :=
            roman_to_int_pos hraw_ne (fun c hc => List.all_eq_true.mp hroman c hc)
          have hnn : ¬ roman_to_int raw < 0 := by omega
          unfold pyIntStr
          rw [if_neg hnn]
          exact natDigits_spec _
      obtain ⟨hn_ne, hn_dig⟩ := hnum _ rfl
      set num := (if raw ≠ [] && raw.all Char.isDigit then raw
                  else pyIntStr (roman_to_int raw)) with hnumdef
      set hd := (if "fig".toList.isPrefixOf head then "fig".toList else "table".toList)
        with hhddef
      have hk : k = hd ++ num ++ suff := by
        rw [← h]
      have hhd2 : hd = "fig".toList ∨ hd = "table".toList := by
        rw [hhddef]
        split
        · exact Or.inl rfl
        · exact Or.inr rfl
      have hhd_props : ∀ c ∈ hd, isPySpace c = false ∧ c.isUpper = false := by
        rcases hhd2 with h0 | h0 <;> rw [h0] <;> decide
      have hsuf_props : ∀ c ∈ suff, isPySpace c = false ∧ c.isUpper = false := by
        rcases hsuff with h0 | ⟨a, h0, ha⟩
        · rw [h0]; intro c hc; exact absurd hc (List.not_mem_nil _)
        · rw [h0]
          intro c hc
          simp only [List.mem_singleton] at hc
          subst hc
          exact lowerAlpha_props ha
      refine ⟨?_, ?_, hd, num, suff, hk, hhd2, hn_ne, hn_dig,
        fun c hc => (digit_props (hn_dig c hc)).2.2, hsuff⟩
      · intro c hc
        rw [hk] at hc
        rcases List.mem_append.mp hc with hc1 | hc1
        · rcases List.mem_append.mp hc1 with hc2 | hc2
          · exact (hhd_props c hc2).1
          · exact (digit_props (hn_dig c hc2)).1
        · exact (hsuf_props c hc1).1
      · intro c hc
        rw [hk] at hc
        rcases List.mem_append.mp hc with hc1 | hc1
        · rcases List.mem_append.mp hc1 with hc2 | hc2
          · exact (hhd_props c hc2).2
          · exact (digit_props (hn_dig c hc2)).2.1
        · exact (hsuf_props c hc1).2

/-- Closed instance discharging C10's hypothesis at a concrete input. -/
theorem C10_key_shape_witness :
    (∀ c ∈ "fig3b".toList, isPySpace c = false) ∧
      (∀ c ∈ "fig3b".toList, Char.isUpper c = false) := by
  have h := C10_key_shape "Figure IIIb".toList "fig3b".toList (by decide)
  exact ⟨h.1, h.2.1⟩

end ClaimC10

section ClaimAnswer

/-- A deterministic test environment with an empty index: every
similarity search misses. -/
def emptyEnv : RagEnv :=
  ⟨fun _ _ => [], fun _ => ⟨[], 0, [], [], none, []⟩,
   fun _ => "generated".toList, fun _ => []⟩

/-- The figure/image intent keyword test of `answer`'s second branch. -/
def hasFigKeyword (q : List Char) : Bool :=
  containsSub "figure".toList q || containsSub "image".toList q ||
  containsSub "diagram".toList q || containsSub "fig ".toList q

/-- The matched text of a label search is a substring of the scanned
string. -/
theorem labelSearchAux_infix {p : Bool} {s : List Char} {m : LabelM}
    (h : labelSearchAux p s = some m) : m.g0 <:+: s := by
  induction s generalizing p with
  | nil => simp [labelSearchAux] at h
  | cons c cs ih =>
    simp only [labelSearchAux] at h
    cases hma : matchLabelAt p (c :: cs) with
    | some m0 =>
      rw [hma] at h
      simp only [Option.some.injEq] at h
      subst h
      obtain ⟨hd, -, -⟩ := matchLabelAt_decomp hma
      exact List.IsPrefix.isInfix ⟨_, hd.symm⟩
    | none =>
      rw [hma] at h
      exact List.infix_cons (ih h)

/-- C1: `answer` follows the first-match-wins decision order: a label
pattern match resolves the label directly (kind `image` for fig-prefixed
heads, `table` otherwise); else a figure/image keyword yields the
best-match image block for the question; else the word `table` yields the
best-match table block; else the free-text generator runs and each label
pattern in its output is replaced by its rendered block. -/
theorem C1_answer_decision_order (env : RagEnv) (q : List Char) :
    (∀ m : LabelM, labelSearch (lowerL q) = some m →
      answer env q = inject_by_label env m.g0
        (some (if "fig".toList.isPrefixOf m.head then "image".toList
               else "table".toList))) ∧
    (labelSearch (lowerL q) = none → hasFigKeyword (lowerL q) = true →
      answer env q = best_match_block env q "image".toList) ∧
    (labelSearch (lowerL q) = none → hasFigKeyword (lowerL q) = false →
      containsSub "table".toList (lowerL q) = true →
      answer env q = best_match_block env q "table".toList) ∧
    (labelSearch (lowerL q) = none → hasFigKeyword (lowerL q) = false →
      containsSub "table".toList (lowerL q) = false →
      answer env q = subLabels env false (replaceNl (env.llm q))) := by
  refine ⟨?_, ?_, ?_, ?_⟩
  · intro m hm
    simp only [answer, hm]
  · intro hm hkw
    unfold hasFigKeyword at hkw
    simp only [answer, hm, hkw, if_true]
  · intro hm hkw htb
    unfold hasFigKeyword at hkw
    simp only [answer, hm, hkw, htb, if_true, if_false, Bool.false_eq_true]
  · intro hm hkw htb
    unfold hasFigKeyword at hkw
    simp only [answer, hm, hkw, htb, if_false, Bool.false_eq_true]

/-- Closed instance discharging C1's first branch at a concrete input. -/
theorem C1_answer_decision_order_witness :
    answer emptyEnv "figure 2".toList =
      inject_by_label emptyEnv
        (⟨"figure".toList, [' '], ['2'], [], []⟩ : LabelM).g0
        (some (if "fig".toList.isPrefixOf "figure".toList then "image".toList
               else "table".toList)) :=
  (C1_answer_decision_order emptyEnv "figure 2".toList).1
    ⟨"figure".toList, [' '], ['2'], [], []⟩ (by decide)

/-- C3 as stated is false: the label branch matches on the lowercased
question, so the returned fallback text is the lowercased `"figure 2"`,
not the verbatim `"Figure 2"` from the question. -/
theorem C3_counterexample :
    answer emptyEnv "What does Figure 2 show?".toList ≠ "Figure 2".toList ∧
    answer emptyEnv "What does Figure 2 show?".toList = "figure 2".toList := by
  constructor
  · decide
  · decide

/-- C3 (amended): when the question contains a label reference and the
index search finds nothing, `answer` returns exactly the matched label
text — a substring of the lowercased question — unchanged. -/
theorem C3_no_hit_returns_label (env : RagEnv) (q : List Char) (m : LabelM)
    (hm : labelSearch (lowerL q) = some m)
    (hmiss : ∀ qq kk : List Char, env.search qq kk = []) :
    answer env q = m.g0 ∧ m.g0 <:+: lowerL q := by
  constructor
  · simp only [answer, hm]
    unfold inject_by_label
    simp [top_hit, hmiss]
  · exact labelSearchAux_infix hm

/-- Closed instance discharging C3's hypotheses at a concrete input. -/
theorem C3_no_hit_returns_label_witness :
    answer emptyEnv "What does Figure 2 show?".toList =
      (⟨"figure".toList, [' '], ['2'], [], " show?".toList⟩ : LabelM).g0 :=
  (C3_no_hit_returns_label emptyEnv "What does Figure 2 show?".toList
    ⟨"figure".toList, [' '], ['2'], [], " show?".toList⟩
    (by decide) (fun _ _ => rfl)).1

end ClaimAnswer

section CharToolkit

theorem char_eq_of_toNat {c d : Char} (h : c.toNat = d.toNat) : c = d :=
  Char.ext (UInt32.ext h)

/-- `Char.toLower` either fixes the character (outside the ASCII uppercase
range) or adds 32 to its code. -/
theorem toLower_cases (c : Char) :
    (¬(65 ≤ c.toNat ∧ c.toNat ≤ 90) ∧ c.toLower = c) ∨
    (65 ≤ c.toNat ∧ c.toNat ≤ 90 ∧ c.toLower.toNat = c.toNat + 32) := by
  by_cases h : 65 ≤ c.toNat ∧ c.toNat ≤ 90
  · right
    refine ⟨h.1, h.2, ?_⟩
    have hvalid : (c.toNat + 32).isValidChar := Or.inl (by omega)
    simp only [Char.toLower]
    rw [if_pos h]
    unfold Char.ofNat
    rw [dif_pos hvalid]
    rfl
  · left
    refine ⟨h, ?_⟩
    simp only [Char.toLower]
    rw [if_neg h]

theorem digit_intro {c : Char} (h1 : 48 ≤ c.toNat) (h2 : c.toNat ≤ 57) :
    Char.isDigit c = true := by
  simp only [Char.isDigit, Bool.and_eq_true, decide_eq_true_eq]
  exact ⟨h1, h2⟩

theorem lowerAlpha_intro {c : Char} (h1 : 97 ≤ c.toNat) (h2 : c.toNat ≤ 122) :
    isLowerAlpha c = true := by
  simp only [isLowerAlpha, Bool.and_eq_true, decide_eq_true_eq, Char.le_def]
  exact ⟨h1, h2⟩

theorem wordChar_intro {c : Char}
    (h : (48 ≤ c.toNat ∧ c.toNat ≤ 57) ∨ (65 ≤ c.toNat ∧ c.toNat ≤ 90) ∨
         (97 ≤ c.toNat ∧ c.toNat ≤ 122) ∨ c.toNat = 95) : isWordChar c = true := by
  simp only [isWordChar, Char.isAlphanum, Char.isAlpha, Char.isUpper, Char.isLower,
    Char.isDigit, Bool.or_eq_true, Bool.and_eq_true, decide_eq_true_eq]
  rcases h with ⟨h1, h2⟩ | ⟨h1, h2⟩ | ⟨h1, h2⟩ | h1
  · exact Or.inl (Or.inr ⟨h1, h2⟩)
  · exact Or.inl (Or.inl (Or.inl ⟨h1, h2⟩))
  · exact Or.inl (Or.inl (Or.inr ⟨h1, h2⟩))
  · exact Or.inr (char_eq_of_toNat (by rw [h1]; rfl))

theorem wordChar_elim {c : Char} (h : isWordChar c = true) :
    (48 ≤ c.toNat ∧ c.toNat ≤ 57) ∨ (65 ≤ c.toNat ∧ c.toNat ≤ 90) ∨
    (97 ≤ c.toNat ∧ c.toNat ≤ 122) ∨ c.toNat = 95 := by
  simp only [isWordChar, Char.isAlphanum, Char.isAlpha, Char.isUpper, Char.isLower,
    Char.isDigit, Bool.or_eq_true, Bool.and_eq_true, decide_eq_true_eq] at h
  rcases h with ((⟨h1, h2⟩ | ⟨h1, h2⟩) | ⟨h1, h2⟩) | h1
  · exact Or.inr (Or.inl ⟨h1, h2⟩)
  · exact Or.inr (Or.inr (Or.inl ⟨h1, h2⟩))
  · exact Or.inl ⟨h1, h2⟩
  · subst h1; exact Or.inr (Or.inr (Or.inr rfl))

theorem pyspace_false_of_ge {c : Char} (h : 33 ≤ c.toNat) : isPySpace c = false := by
  cases hs : isPySpace c with
  | false => rfl
  | true => rcases pyspace_toNat hs with h0|h0|h0|h0|h0|h0 <;> omega

theorem pyspace_not_word {c : Char} (h : isPySpace c = true) : isWordChar c = false := by
  cases hw : isWordChar c with
  | false => rfl
  | true =>
    exfalso
    rcases pyspace_toNat h with h0|h0|h0|h0|h0|h0 <;>
      rcases wordChar_elim hw with ⟨h1, h2⟩ | ⟨h1, h2⟩ | ⟨h1, h2⟩ | h1 <;> omega

theorem pyspace_lower_id {c : Char} (h : isPySpace c = true) : c.toLower = c := by
  rcases toLower_cases c with ⟨-, hid⟩ | ⟨h1, h2, -⟩
  · exact hid
  · exfalso
    rcases pyspace_toNat h with h0|h0|h0|h0|h0|h0 <;> omega

theorem roman_toNat {c : Char} (h : isRomanChar c = true) :
    c.toNat = 105 ∨ c.toNat = 118 ∨ c.toNat = 120 ∨ c.toNat = 108 ∨
      c.toNat = 99 ∨ c.toNat = 100 ∨ c.toNat = 109 := by
  simp only [isRomanChar, Bool.or_eq_true, decide_eq_true_eq] at h
  rcases h with ((((((h|h)|h)|h)|h)|h)|h) <;> subst h <;> decide

theorem roman_lowerAlpha {c : Char} (h : isRomanChar c = true) :
    isLowerAlpha c = true := by
  rcases roman_toNat h with h0|h0|h0|h0|h0|h0|h0 <;> exact lowerAlpha_intro (by omega) (by omega)

theorem numClass_word {c : Char} (h : isNumClass c = true) : isWordChar c = true := by
  simp only [isNumClass, Bool.or_eq_true] at h
  rcases h with h | h
  · obtain ⟨h1, h2⟩ := digit_toNat h
    exact wordChar_intro (Or.inl ⟨h1, h2⟩)
  · obtain ⟨h1, h2⟩ := lowerAlpha_toNat (roman_lowerAlpha h)
    exact wordChar_intro (Or.inr (Or.inr (Or.inl ⟨h1, h2⟩)))

theorem lowerAlpha_word {c : Char} (h : isLowerAlpha c = true) : isWordChar c = true := by
  obtain ⟨h1, h2⟩ := lowerAlpha_toNat h
  exact wordChar_intro (Or.inr (Or.inr (Or.inl ⟨h1, h2⟩)))

/-- A character whose lowercase form is in the numeral class is a word
character, is not whitespace, and survives the key filter. -/
theorem numClass_lower_props {c : Char} (h : isNumClass c.toLower = true) :
    isWordChar c = true ∧ isPySpace c = false ∧ isKeyClass c = true := by
  have hkey : isKeyClass c = true := by
    simp only [isNumClass, Bool.or_eq_true] at h
    simp only [isKeyClass, Bool.or_eq_true]
    rcases h with h | h
    · exact Or.inl h
    · exact Or.inr (roman_lowerAlpha h)
  refine ⟨?_, ?_, hkey⟩
  all_goals {
    rcases toLower_cases c with ⟨hno, hid⟩ | ⟨h1, h2, h3⟩
    · rw [hid] at h
      simp only [isNumClass, Bool.or_eq_true] at h
      rcases h with h | h
      · obtain ⟨hb1, hb2⟩ := digit_toNat h
        first
        | exact wordChar_intro (Or.inl ⟨hb1, hb2⟩)
        | exact pyspace_false_of_ge (by omega)
      · obtain ⟨hb1, hb2⟩ := lowerAlpha_toNat (roman_lowerAlpha h)
        first
        | exact wordChar_intro (Or.inr (Or.inr (Or.inl ⟨hb1, hb2⟩)))
        | exact pyspace_false_of_ge (by omega)
    · first
      | exact wordChar_intro (Or.inr (Or.inl ⟨h1, h2⟩))
      | exact pyspace_false_of_ge (by omega)
  }

/-- A character whose lowercase form is a lowercase letter is a word
character, is not whitespace, and survives the key filter. -/
theorem lowerAlpha_lower_props {c : Char} (h : isLowerAlpha c.toLower = true) :
    isWordChar c = true ∧ isPySpace c = false ∧ isKeyClass c = true := by
  have hkey : isKeyClass c = true := by
    simp only [isKeyClass, Bool.or_eq_true]
    exact Or.inr h
  refine ⟨?_, ?_, hkey⟩
  all_goals {
    rcases toLower_cases c with ⟨hno, hid⟩ | ⟨h1, h2, h3⟩
    · rw [hid] at h
      obtain ⟨hb1, hb2⟩ := lowerAlpha_toNat h
      first
      | exact wordChar_intro (Or.inr (Or.inr (Or.inl ⟨hb1, hb2⟩)))
      | exact pyspace_false_of_ge (by omega)
    · first
      | exact wordChar_intro (Or.inr (Or.inl ⟨h1, h2⟩))
      | exact pyspace_false_of_ge (by omega)
  }

end CharToolkit

section RunsLemmas

theorem runsByAux_all_p (p : Char → Bool) :
    ∀ (cs acc : List Char), (∀ c ∈ cs, p c = true) →
    runsByAux p cs acc =
      if acc = [] ∧ cs = [] then [] else [acc.reverse ++ cs] := by
  intro cs
  induction cs with
  | nil =>
    intro acc _
    simp only [runsByAux]
    by_cases ha : acc = []
    · subst ha; simp
    · simp [ha, List.isEmpty_iff]
  | cons c cs ih =>
    intro acc hall
    have hc := hall c (List.mem_cons_self ..)
    simp only [runsByAux, hc, if_true]
    rw [ih (c :: acc) (fun d hd => hall d (List.mem_cons_of_mem _ hd))]
    rw [if_neg (by simp)]
    rw [if_neg (by simp)]
    simp

theorem runs_all {p : Char → Bool} {cs : List Char} (hne : cs ≠ [])
    (hall : ∀ c ∈ cs, p c = true) : runsBy p cs = [cs] := by
  unfold runsBy
  rw [runsByAux_all_p p cs [] hall, if_neg (by simp [hne])]
  simp

theorem runsByAux_skip (p : Char → Bool) :
    ∀ (ws rest : List Char), (∀ c ∈ ws, p c = false) →
    runsByAux p (ws ++ rest) [] = runsByAux p rest [] := by
  intro ws
  induction ws with
  | nil => intro rest _; rfl
  | cons w ws ih =>
    intro rest hall
    have hw := hall w (List.mem_cons_self ..)
    simp only [List.cons_append, runsByAux, hw]
    rw [if_neg (by simp)]
    simp only [List.isEmpty_nil, if_true]
    exact ih rest (fun d hd => hall d (List.mem_cons_of_mem _ hd))

theorem runsByAux_break (p : Char → Bool) :
    ∀ (ws rest acc : List Char), (∀ c ∈ ws, p c = false) → ws ≠ [] → acc ≠ [] →
    runsByAux p (ws ++ rest) acc = acc.reverse :: runsByAux p rest [] := by
  intro ws
  induction ws with
  | nil => intro rest acc _ hne _; exact absurd rfl hne
  | cons w ws ih =>
    intro rest acc hall _ hacc
    have hw := hall w (List.mem_cons_self ..)
    simp only [List.cons_append, runsByAux, hw]
    rw [if_neg (by simp)]
    rw [if_neg (by simpa [List.isEmpty_iff] using hacc)]
    congr 1
    exact runsByAux_skip p ws rest (fun d hd => hall d (List.mem_cons_of_mem _ hd))

theorem runsByAux_enter (p : Char → Bool) :
    ∀ (xs rest acc : List Char), (∀ c ∈ xs, p c = true) →
    runsByAux p (xs ++ rest) acc = runsByAux p rest (xs.reverse ++ acc) := by
  intro xs
  induction xs with
  | nil => intro rest acc _; rfl
  | cons x xs ih =>
    intro rest acc hall
    have hx := hall x (List.mem_cons_self ..)
    simp only [List.cons_append, runsByAux, hx, if_true]
    calc runsByAux p (xs ++ rest) (x :: acc)
        = runsByAux p rest (xs.reverse ++ (x :: acc)) :=
          ih rest (x :: acc) (fun d hd => hall d (List.mem_cons_of_mem _ hd))
      _ = runsByAux p rest ((x :: xs).reverse ++ acc) := by
          congr 1
          simp

/-- A run of `p`-characters, a nonempty separator run, and another run of
`p`-characters split into exactly two tokens. -/
theorem runs_sep {p : Char → Bool} {xs ws ys : List Char}
    (hxs : ∀ c ∈ xs, p c = true) (hxne : xs ≠ [])
    (hws : ∀ c ∈ ws, p c = false) (hwne : ws ≠ [])
    (hys : ∀ c ∈ ys, p c = true) (hyne : ys ≠ []) :
    runsBy p (xs ++ ws ++ ys) = [xs, ys] := by
  unfold runsBy
  rw [List.append_assoc, runsByAux_enter p xs (ws ++ ys) [] hxs, List.append_nil,
    runsByAux_break p ws ys xs.reverse hws hwne (by simpa using hxne),
    List.reverse_reverse]
  congr 1
  rw [runsByAux_all_p p ys [] hys, if_neg (by simp [hyne])]
  simp

theorem intercalate_single (s x : List Char) : List.intercalate s [x] = x := by
  simp [List.intercalate, List.intersperse]

end RunsLemmas

section LabelSpec

theorem mkLabelM_full {cs : List Char} {k : Nat}
    {t4 : List Char × List Char × List Char × List Char}
    (hq : numTailB (cs.drop k) = some t4) :
    (∀ c ∈ (mkLabelM (cs.take k) t4).ws, isPySpace c = true) ∧
    (mkLabelM (cs.take k) t4).num ≠ [] ∧
    (∀ c ∈ (mkLabelM (cs.take k) t4).num, isNumClass c.toLower = true) ∧
    ((mkLabelM (cs.take k) t4).suff = [] ∨
      ∃ a, (mkLabelM (cs.take k) t4).suff = [a] ∧ isLowerAlpha a.toLower = true) := by
  obtain ⟨ws, num, suff, rest⟩ := t4
  obtain ⟨-, hws, hnum, hne, hsuff⟩ := numTailB_decomp hq
  refine ⟨?_, hne, ?_, hsuff⟩
  · intro c hc
    have hc2 : c ∈ (List.drop k cs).takeWhile isPySpace := by
      rw [← hws]; exact hc
    exact List.mem_takeWhile_imp hc2
  · intro c hc
    have hc2 : c ∈ (List.dropWhile isPySpace (List.drop k cs)).takeWhile
        (fun d => isNumClass d.toLower) := by
      rw [← hnum]; exact hc
    have := List.mem_takeWhile_imp hc2
    simpa using this

/-- The invariants of a successful position match: lowercased head is one
of the three alternatives, the gap is whitespace, the numeral run is a
nonempty run of (case-insensitive) numeral-class characters, the suffix is
at most one letter. -/
theorem matchLabelAt_full {p : Bool} {cs : List Char} {m : LabelM}
    (h : matchLabelAt p cs = some m) :
    (lowerL m.head = "fig".toList ∨ lowerL m.head = "figure".toList ∨
      lowerL m.head = "table".toList) ∧
    (∀ c ∈ m.ws, isPySpace c = true) ∧ m.num ≠ [] ∧
    (∀ c ∈ m.num, isNumClass c.toLower = true) ∧
    (m.suff = [] ∨ ∃ a, m.suff = [a] ∧ isLowerAlpha a.toLower = true) := by
  simp only [matchLabelAt] at h
  split at h
  · exact absurd h (by simp)
  split at h
  · rename_i hci
    cases hq : numTailB (cs.drop 6) with
    | some t4 =>
      rw [hq] at h
      simp only [Option.some.injEq] at h
      subst h
      obtain ⟨f1, f2, f3, f4⟩ := mkLabelM_full hq
      exact ⟨Or.inr (Or.inl (ciPrefix_spec hci).2), f1, f2, f3, f4⟩
    | none =>
      rw [hq] at h
      cases hq3 : numTailB (cs.drop 3) with
      | some t4 =>
        rw [hq3] at h
        simp only [Option.some.injEq] at h
        subst h
        obtain ⟨f1, f2, f3, f4⟩ := mkLabelM_full hq3
        refine ⟨Or.inl ?_, f1, f2, f3, f4⟩
        have h6 := (ciPrefix_spec hci).2
        have h36 : cs.take 3 = (cs.take 6).take 3 := by
          rw [List.take_take]
          norm_num
        have h6a : List.map Char.toLower (List.take 6 cs) = "figure".toList := h6
        show lowerL (cs.take 3) = "fig".toList
        rw [h36]
        unfold lowerL
        rw [List.map_take, h6a]
        decide
      | none => rw [hq3] at h; exact absurd h (by simp)
  split at h
  · rename_i hci
    cases hq : numTailB (cs.drop 3) with
    | some t4 =>
      rw [hq] at h
      simp only [Option.some.injEq] at h
      subst h
      obtain ⟨f1, f2, f3, f4⟩ := mkLabelM_full hq
      exact ⟨Or.inl (ciPrefix_spec hci).2, f1, f2, f3, f4⟩
    | none => rw [hq] at h; exact absurd h (by simp)
  split at h
  · rename_i hci
    cases hq : numTailB (cs.drop 5) with
    | some t4 =>
      rw [hq] at h
      simp only [Option.some.injEq] at h
      subst h
      obtain ⟨f1, f2, f3, f4⟩ := mkLabelM_full hq
      exact ⟨Or.inr (Or.inr (ciPrefix_spec hci).2), f1, f2, f3, f4⟩
    | none => rw [hq] at h; exact absurd h (by simp)
  · exact absurd h (by simp)

theorem labelSearchAux_full {p : Bool} {s : List Char} {m : LabelM}
    (h : labelSearchAux p s = some m) :
    (lowerL m.head = "fig".toList ∨ lowerL m.head = "figure".toList ∨
      lowerL m.head = "table".toList) ∧
    (∀ c ∈ m.ws, isPySpace c = true) ∧ m.num ≠ [] ∧
    (∀ c ∈ m.num, isNumClass c.toLower = true) ∧
    (m.suff = [] ∨ ∃ a, m.suff = [a] ∧ isLowerAlpha a.toLower = true) := by
  induction s generalizing p with
  | nil => simp [labelSearchAux] at h
  | cons c cs ih =>
    simp only [labelSearchAux] at h
    cases hma : matchLabelAt p (c :: cs) with
    | some m0 =>
      rw [hma] at h
      simp only [Option.some.injEq] at h
      subst h
      exact matchLabelAt_full hma
    | none =>
      rw [hma] at h
      exact ih h

/-- No stop word starts with a numeral-class character and keeps
numeral-class characters everywhere except possibly its last position. -/
theorem not_stop {c : Char} {cs : List Char} (h1 : isNumClass c = true)
    (h2 : (c :: cs).dropLast.all isNumClass = true) :
    STOP_WORDS.contains (c :: cs) = false := by
  cases hc : STOP_WORDS.contains (c :: cs) with
  | false => rfl
  | true =>
    exfalso
    have hmem : (c :: cs) ∈ STOP_WORDS := by simpa using hc
    simp only [STOP_WORDS, List.mem_cons, List.not_mem_nil, or_false] at hmem
    rcases hmem with h|h|h|h|h|h|h|h|h|h|h|h|h|h|h <;>
      (injection h with hx hy; subst hx; subst hy; revert h1 h2; decide)

end LabelSpec

section ClaimC6

/-- `clean_query` on a single all-word-character token that is not a stop
word returns the lowercased token. -/
theorem clean_query_single_token {x : List Char}
    (hword : ∀ c ∈ lowerL x, isWordChar c = true) (hlne : lowerL x ≠ [])
    (hstop : STOP_WORDS.contains (lowerL x) = false) :
    clean_query x = lowerL x := by
  unfold clean_query
  rw [runs_all hlne hword]
  simp only [List.filter_cons, List.filter_nil, hstop, Bool.not_false, if_true]
  rw [intercalate_single]
  simp [List.isEmpty_iff, hlne]

/-- `clean_query` on stop-word-token + separator + keep-token returns the
lowercased kept token. -/
theorem clean_query_label (x w y : List Char)
    (hxw : ∀ c ∈ lowerL x, isWordChar c = true) (hxne : lowerL x ≠ [])
    (hwsep : ∀ c ∈ lowerL w, isWordChar c = false) (hwne : lowerL w ≠ [])
    (hyw : ∀ c ∈ lowerL y, isWordChar c = true) (hyne : lowerL y ≠ [])
    (hxstop : STOP_WORDS.contains (lowerL x) = true)
    (hystop : STOP_WORDS.contains (lowerL y) = false) :
    clean_query (x ++ w ++ y) = lowerL y := by
  unfold clean_query
  have hsplit : lowerL (x ++ w ++ y) = lowerL x ++ lowerL w ++ lowerL y := by
    simp [lowerL]
  rw [hsplit, runs_sep hxw hxne hwsep hwne hyw hyne]
  simp only [List.filter_cons, List.filter_nil, hxstop, hystop, Bool.not_true,
    Bool.not_false, if_true, if_false, Bool.false_eq_true]
  rw [intercalate_single]
  simp [List.isEmpty_iff, hyne]

/-- The numeral-plus-suffix token of a label is never a stop word. -/
theorem not_stop_numsuff {num suff : List Char} (hnum_ne : num ≠ [])
    (hnum : ∀ c ∈ num, isNumClass c.toLower = true)
    (hsuff : suff = [] ∨ ∃ a, suff = [a] ∧ isLowerAlpha a.toLower = true) :
    STOP_WORDS.contains (lowerL num ++ lowerL suff) = false := by
  cases num with
  | nil => exact absurd rfl hnum_ne
  | cons n0 nrest =>
    have hshape : lowerL (n0 :: nrest) ++ lowerL suff =
        n0.toLower :: (lowerL nrest ++ lowerL suff) := by
      simp [lowerL]
    rw [hshape]
    apply not_stop (hnum n0 (List.mem_cons_self ..))
    rcases hsuff with hs0 | ⟨a, hs0, ha⟩
    · subst hs0
      simp only [lowerL, List.map_nil, List.append_nil]
      apply List.all_eq_true.mpr
      intro x hx
      have hx2 : x ∈ n0.toLower :: List.map Char.toLower nrest :=
        List.mem_of_mem_dropLast hx
      have hx3 : x ∈ List.map Char.toLower (n0 :: nrest) := by simpa using hx2
      obtain ⟨d, hd, rfl⟩ := List.mem_map.mp hx3
      exact hnum d hd
    · subst hs0
      have hdl : (n0.toLower :: (lowerL nrest ++ lowerL [a])).dropLast =
          n0.toLower :: lowerL nrest := by
        have : n0.toLower :: (lowerL nrest ++ lowerL [a]) =
            (n0.toLower :: lowerL nrest) ++ [a.toLower] := by
          simp [lowerL]
        rw [this, List.dropLast_concat]
      rw [hdl]
      apply List.all_eq_true.mpr
      intro x hx
      have hx3 : x ∈ List.map Char.toLower (n0 :: nrest) := by
        simpa [lowerL] using hx
      obtain ⟨d, hd, rfl⟩ := List.mem_map.mp hx3
      exact hnum d hd

/-- The key `_inject_by_label` extracts from a matched label produces the
same cleaned search query as the raw matched label text. -/
theorem key_clean_eq (m : LabelM)
    (hhead : lowerL m.head = "fig".toList ∨ lowerL m.head = "figure".toList ∨
      lowerL m.head = "table".toList)
    (hws : ∀ c ∈ m.ws, isPySpace c = true)
    (hnum_ne : m.num ≠ [])
    (hnum : ∀ c ∈ m.num, isNumClass c.toLower = true)
    (hsuff : m.suff = [] ∨ ∃ a, m.suff = [a] ∧ isLowerAlpha a.toLower = true) :
    clean_query
        (((runsBy (fun c => !(isPySpace c)) m.g0).getLastD []).filter isKeyClass) =
      clean_query m.g0 := by
  have hhead_la : ∀ c ∈ m.head, isLowerAlpha c.toLower = true := by
    intro c hc
    have hmem : c.toLower ∈ lowerL m.head := List.mem_map_of_mem _ hc
    have hfig : ∀ x ∈ "fig".toList, isLowerAlpha x = true := by decide
    have hfigure : ∀ x ∈ "figure".toList, isLowerAlpha x = true := by decide
    have htable : ∀ x ∈ "table".toList, isLowerAlpha x = true := by decide
    rcases hhead with h|h|h
    · exact hfig _ (h ▸ hmem)
    · exact hfigure _ (h ▸ hmem)
    · exact htable _ (h ▸ hmem)
  have hhead_props : ∀ c ∈ m.head,
      isWordChar c = true ∧ isPySpace c = false ∧ isKeyClass c = true :=
    fun c hc => lowerAlpha_lower_props (hhead_la c hc)
  have hnum_props : ∀ c ∈ m.num,
      isWordChar c = true ∧ isPySpace c = false ∧ isKeyClass c = true :=
    fun c hc => numClass_lower_props (hnum c hc)
  have hsuff_props : ∀ c ∈ m.suff,
      isWordChar c = true ∧ isPySpace c = false ∧ isKeyClass c = true := by
    rcases hsuff with h0 | ⟨a, h0, ha⟩
    · rw [h0]; intro c hc; exact absurd hc (List.not_mem_nil _)
    · rw [h0]; intro c hc
      simp only [List.mem_singleton] at hc
      subst hc
      exact lowerAlpha_lower_props ha
  have hhead_ne : m.head ≠ [] := by
    intro e
    rcases hhead with h|h|h <;> rw [e] at h <;> exact absurd h (by decide)
  have hns_ne : m.num ++ m.suff ≠ [] := by
    intro e
    exact hnum_ne (List.append_eq_nil.mp e).1
  have hg0 : m.g0 = m.head ++ m.ws ++ (m.num ++ m.suff) := by
    simp [LabelM.g0, List.append_assoc]
  by_cases hwsE : m.ws = []
  · have hg0a : m.g0 = m.head ++ (m.num ++ m.suff) := by
      rw [hg0, hwsE]
      simp
    have hg0ne : m.g0 ≠ [] := by
      rw [hg0a]
      intro e
      exact hhead_ne (List.append_eq_nil.mp e).1
    have hall : ∀ c ∈ m.g0, (!(isPySpace c)) = true := by
      intro c hc
      rw [hg0a] at hc
      rcases List.mem_append.mp hc with h1 | h1
      · simp [(hhead_props c h1).2.1]
      · rcases List.mem_append.mp h1 with h2 | h2
        · simp [(hnum_props c h2).2.1]
        · simp [(hsuff_props c h2).2.1]
    rw [runs_all hg0ne hall]
    have hlast : ([m.g0] : List (List Char)).getLastD [] = m.g0 := by simp
    rw [hlast]
    have hfilter : m.g0.filter isKeyClass = m.g0 := by
      apply List.filter_eq_self.mpr
      intro c hc
      rw [hg0a] at hc
      rcases List.mem_append.mp hc with h1 | h1
      · exact (hhead_props c h1).2.2
      · rcases List.mem_append.mp h1 with h2 | h2
        · exact (hnum_props c h2).2.2
        · exact (hsuff_props c h2).2.2
    rw [hfilter]
  · have hxs : ∀ c ∈ m.head, (!(isPySpace c)) = true :=
      fun c hc => by simp [(hhead_props c hc).2.1]
    have hwsP : ∀ c ∈ m.ws, (!(isPySpace c)) = false :=
      fun c hc => by simp [hws c hc]
    have hys : ∀ c ∈ m.num ++ m.suff, (!(isPySpace c)) = true := by
      intro c hc
      rcases List.mem_append.mp hc with h2 | h2
      · simp [(hnum_props c h2).2.1]
      · simp [(hsuff_props c h2).2.1]
    have hruns : runsBy (fun c => !(isPySpace c)) m.g0 = [m.head, m.num ++ m.suff] := by
      rw [hg0]
      exact runs_sep hxs hhead_ne hwsP hwsE hys hns_ne
    rw [hruns]
    have hlast : ([m.head, m.num ++ m.suff] : List (List Char)).getLastD [] =
        m.num ++ m.suff := by simp
    rw [hlast]
    have hfilter : (m.num ++ m.suff).filter isKeyClass = m.num ++ m.suff := by
      apply List.filter_eq_self.mpr
      intro c hc
      rcases List.mem_append.mp hc with h2 | h2
      · exact (hnum_props c h2).2.2
      · exact (hsuff_props c h2).2.2
    rw [hfilter]
    have hmapns : lowerL (m.num ++ m.suff) = lowerL m.num ++ lowerL m.suff := by
      simp [lowerL]
    have hnsw : ∀ c ∈ lowerL (m.num ++ m.suff), isWordChar c = true := by
      intro c hc
      rw [hmapns] at hc
      rcases List.mem_append.mp hc with h2 | h2
      · obtain ⟨d, hd, rfl⟩ := List.mem_map.mp h2
        exact numClass_word (hnum d hd)
      · obtain ⟨d, hd, rfl⟩ := List.mem_map.mp h2
        rcases hsuff with h0 | ⟨a, h0, ha⟩
        · rw [h0] at hd; exact absurd hd (List.not_mem_nil _)
        · rw [h0] at hd
          simp only [List.mem_singleton] at hd
          subst hd
          exact lowerAlpha_word ha
    have hnsne2 : lowerL (m.num ++ m.suff) ≠ [] := by
      simpa [lowerL] using hns_ne
    have hnsstop : STOP_WORDS.contains (lowerL (m.num ++ m.suff)) = false := by
      rw [hmapns]
      exact not_stop_numsuff hnum_ne hnum hsuff
    have h1 : clean_query (m.num ++ m.suff) = lowerL (m.num ++ m.suff) :=
      clean_query_single_token hnsw hnsne2 hnsstop
    have h2 : clean_query m.g0 = lowerL (m.num ++ m.suff) := by
      rw [hg0]
      have hxw : ∀ c ∈ lowerL m.head, isWordChar c = true := by
        intro c hc
        obtain ⟨d, hd, rfl⟩ := List.mem_map.mp hc
        exact lowerAlpha_word (hhead_la d hd)
      have hxne : lowerL m.head ≠ [] := by simpa [lowerL] using hhead_ne
      have hwsep : ∀ c ∈ lowerL m.ws, isWordChar c = false := by
        intro c hc
        obtain ⟨d, hd, rfl⟩ := List.mem_map.mp hc
        rw [pyspace_lower_id (hws d hd)]
        exact pyspace_not_word (hws d hd)
      have hwne : lowerL m.ws ≠ [] := by simpa [lowerL] using hwsE
      have hxstop : STOP_WORDS.contains (lowerL m.head) = true := by
        rcases hhead with h|h|h <;> rw [h] <;> decide
      exact clean_query_label m.head m.ws (m.num ++ m.suff)
        hxw hxne hwsep hwne hnsw hnsne2 hxstop hnsstop
    rw [h1, h2]

/-- C6: when `answer` resolves an explicit label reference, the
kind-filtered similarity search is issued with the raw matched label text
as the query (run through the standard query cleaning, like every search),
and exactly the single best hit is rendered; a miss returns the label. -/
theorem C6_label_resolution (env : RagEnv) (q : List Char) (m : LabelM)
    (hm : labelSearch (lowerL q) = some m) :
    answer env q =
      match (env.search (clean_query m.g0)
          (if "fig".toList.isPrefixOf m.head then "image".toList
           else "table".toList)).head? with
      | none => m.g0
      | some hit =>
          renderHit env
            (if "fig".toList.isPrefixOf m.head then "image".toList
             else "table".toList) hit := by
  obtain ⟨hhead, hws, hnum_ne, hnum, hsuff⟩ := labelSearchAux_full hm
  have hkey := key_clean_eq m hhead hws hnum_ne hnum hsuff
  simp only [answer, hm]
  unfold inject_by_label
  have hkne : (if "fig".toList.isPrefixOf m.head then "image".toList
      else "table".toList).isEmpty = false := by
    split <;> decide
  simp only [hkne, Bool.false_eq_true, if_false]
  unfold top_hit
  rw [hkey]

/-- Closed instance discharging C6's hypothesis at a concrete input. -/
theorem C6_label_resolution_witness :
    answer emptyEnv "show fig 3b now".toList =
      match (emptyEnv.search
          (clean_query (⟨"fig".toList, [' '], ['3'], ['b'], []⟩ : LabelM).g0)
          "image".toList).head? with
      | none => (⟨"fig".toList, [' '], ['3'], ['b'], []⟩ : LabelM).g0
      | some hit => renderHit emptyEnv "image".toList hit := by
  have h := C6_label_resolution emptyEnv "show fig 3b now".toList
    ⟨"fig".toList, [' '], ['3'], ['b'], " now".toList⟩ (by decide)
  simpa using h

end ClaimC6

section ClaimC4

/-- Gluing consecutive `range'` intervals. -/
theorem range'_glue : ∀ (s m n : Nat),
    List.range' s m ++ List.range' (s + m) n = List.range' s (m + n) := by
  intro s m
  induction m generalizing s with
  | zero => intro n; simp
  | succ m ih =>
    intro n
    have h1 : List.range' s (m + 1) = s :: List.range' (s + 1) m := rfl
    have hmn : m + 1 + n = (m + n) + 1 := by omega
    have h2 : List.range' s ((m + n) + 1) = s :: List.range' (s + 1) (m + n) := rfl
    rw [h1, hmn, h2, List.cons_append]
    have h3 : s + (m + 1) = (s + 1) + m := by omega
    rw [h3, ih (s + 1) n]

/-- Every element of `range' s n` is at least `s`. -/
theorem range'_mem_ge : ∀ (s n : Nat) (b : Nat), b ∈ List.range' s n → s ≤ b := by
  intro s n
  induction n generalizing s with
  | zero => intro b hb; exact absurd hb (List.not_mem_nil _)
  | succ n ih =>
    intro b hb
    have h1 : List.range' s (n + 1) = s :: List.range' (s + 1) n := rfl
    rw [h1] at hb
    rcases List.mem_cons.mp hb with h | h
    · omega
    · have := ih (s + 1) b h
      omega

/-- `range' s n` is strictly increasing. -/
theorem range'_pairwise : ∀ (s n : Nat), (List.range' s n).Pairwise (fun a b => a < b) := by
  intro s n
  induction n generalizing s with
  | zero => exact List.Pairwise.nil
  | succ n ih =>
    have h1 : List.range' s (n + 1) = s :: List.range' (s + 1) n := rfl
    rw [h1]
    exact List.Pairwise.cons
      (fun b hb => by have := range'_mem_ge (s + 1) n b hb; omega) (ih (s + 1))

/-- The text pass assigns ids `cid+1, …, cid+len` and leaves the counter at
`cid+len`. -/
theorem textPass_ids (stem : List Char) (units : List TextUnit) :
    ∀ cid : Nat,
      (textPass stem units cid).1.map (fun r => r.chunk_id) =
        List.range' (cid + 1) (textPass stem units cid).1.length ∧
      (textPass stem units cid).2 = cid + (textPass stem units cid).1.length := by
  induction units with
  | nil => intro cid; simp [textPass]
  | cons u us ih =>
    intro cid
    obtain ⟨ih1, ih2⟩ := ih (cid + 1)
    simp only [textPass, List.map_cons, List.length_cons]
    refine ⟨?_, ?_⟩
    · have hr : List.range' (cid + 1) ((textPass stem us (cid + 1)).1.length + 1) =
          (cid + 1) :: List.range' (cid + 2) (textPass stem us (cid + 1)).1.length := rfl
      rw [hr, ih1]
    · omega

/-- The page-fallback pass assigns ids `cid+1, …, cid+len` and leaves the
counter at `cid+len`. -/
theorem pagePass_ids (doc : DocModel) (pages : List Nat) :
    ∀ (rows : List ChunkRow) (cid : Nat),
      (pagePass doc rows pages cid).1.map (fun r => r.chunk_id) =
        List.range' (cid + 1) (pagePass doc rows pages cid).1.length ∧
      (pagePass doc rows pages cid).2 = cid + (pagePass doc rows pages cid).1.length := by
  induction pages with
  | nil => intro rows cid; simp [pagePass]
  | cons p ps ih =>
    intro rows cid
    by_cases hp : hasTextChunk rows doc.stem p
    · simp only [pagePass]
      rw [if_pos hp]
      exact ih rows cid
    · obtain ⟨ih1, ih2⟩ := ih
        (rows ++ [⟨cid + 1, doc.stem, p, "page".toList, pyclean (doc.pageOcrText p),
          none, none, none, none⟩]) (cid + 1)
      simp only [pagePass]
      rw [if_neg hp]
      simp only [List.map_cons, List.length_cons]
      refine ⟨?_, ?_⟩
      · rw [ih1]
        rfl
      · omega

/-- The table pass assigns ids `cid+1, …, cid+len` and leaves the counter
at `cid+len`. -/
theorem tablePass_ids (collab : Collab) (stem : List Char) (tbls : List TableUnit) :
    ∀ (tblNo cid : Nat),
      (tablePass collab stem tbls tblNo cid).1.map (fun r => r.chunk_id) =
        List.range' (cid + 1) (tablePass collab stem tbls tblNo cid).1.length ∧
      (tablePass collab stem tbls tblNo cid).2 =
        cid + (tablePass collab stem tbls tblNo cid).1.length := by
  induction tbls with
  | nil => intro tblNo cid; simp [tablePass]
  | cons t ts ih =>
    intro tblNo cid
    by_cases hp : t.hasProv
    · obtain ⟨ih1, ih2⟩ := ih (tblNo + 1) (cid + 1)
      simp only [tablePass]
      rw [if_pos hp]
      simp only [List.map_cons, List.length_cons]
      refine ⟨?_, ?_⟩
      · rw [ih1]
        rfl
      · omega
    · simp only [tablePass]
      rw [if_neg hp]
      exact ih tblNo cid

/-- The image pass assigns ids `cid+1, …, cid+len` and leaves the counter
at `cid+len`. -/
theorem picturePass_ids (stem : List Char) (pics : List PictureUnit) :
    ∀ (i figNo cid : Nat),
      (picturePass stem pics i figNo cid).1.map (fun r => r.chunk_id) =
        List.range' (cid + 1) (picturePass stem pics i figNo cid).1.length ∧
      (picturePass stem pics i figNo cid).2 =
        cid + (picturePass stem pics i figNo cid).1.length := by
  induction pics with
  | nil => intro i figNo cid; simp [picturePass]
  | cons pic ps ih =>
    intro i figNo cid
    by_cases hp : pic.hasProv
    · obtain ⟨ih1, ih2⟩ := ih (i + 1) (figNo + 1) (cid + 1)
      simp only [picturePass]
      rw [if_pos hp]
      simp only [List.map_cons, List.length_cons]
      refine ⟨?_, ?_⟩
      · rw [ih1]
        rfl
      · omega
    · simp only [picturePass]
      rw [if_neg hp]
      exact ih (i + 1) figNo cid

/-- Two consecutive id-contiguous row blocks concatenate to an
id-contiguous block. -/
theorem ids_glue {l1 l2 : List ChunkRow} {c0 c1 c2 : Nat}
    (h1 : l1.map (fun r => r.chunk_id) = List.range' (c0 + 1) l1.length)
    (h1c : c1 = c0 + l1.length)
    (h2 : l2.map (fun r => r.chunk_id) = List.range' (c1 + 1) l2.length)
    (h2c : c2 = c1 + l2.length) :
    (l1 ++ l2).map (fun r => r.chunk_id) = List.range' (c0 + 1) (l1 ++ l2).length ∧
    c2 = c0 + (l1 ++ l2).length := by
  constructor
  · rw [List.map_append, h1, h2, List.length_append]
    have he : c1 + 1 = (c0 + 1) + l1.length := by omega
    rw [he, range'_glue]
  · rw [List.length_append]
    omega

/-- One document's four passes together assign ids `cid+1, …, cid+len`. -/
theorem ingestDoc_ids (collab : Collab) (doc : DocModel) (rows : List ChunkRow)
    (cid : Nat) :
    (ingestDoc collab doc rows cid).1.map (fun r => r.chunk_id) =
      List.range' (cid + 1) (ingestDoc collab doc rows cid).1.length ∧
    (ingestDoc collab doc rows cid).2 =
      cid + (ingestDoc collab doc rows cid).1.length := by
  obtain ⟨ht1, ht2⟩ := textPass_ids doc.stem doc.textUnits cid
  obtain ⟨hg1, hg2⟩ := pagePass_ids doc (List.range' 1 doc.numPages)
    (rows ++ (textPass doc.stem doc.textUnits cid).1)
    (textPass doc.stem doc.textUnits cid).2
  obtain ⟨hb1, hb2⟩ := tablePass_ids collab doc.stem doc.tables 0
    (pagePass doc (rows ++ (textPass doc.stem doc.textUnits cid).1)
      (List.range' 1 doc.numPages) (textPass doc.stem doc.textUnits cid).2).2
  obtain ⟨hc1, hc2⟩ := picturePass_ids doc.stem doc.pictures 1 0
    (tablePass collab doc.stem doc.tables 0
      (pagePass doc (rows ++ (textPass doc.stem doc.textUnits cid).1)
        (List.range' 1 doc.numPages) (textPass doc.stem doc.textUnits cid).2).2).2
  have g1 := ids_glue ht1 ht2 hg1 hg2
  have g2 := ids_glue g1.1 g1.2 hb1 hb2
  have g3 := ids_glue g2.1 g2.2 hc1 hc2
  simp only [ingestDoc]
  exact g3

/-- All documents in sequence assign ids `cid+1, …, cid+len`. -/
theorem ingestDocs_ids (collab : Collab) (docs : List DocModel) :
    ∀ (rows : List ChunkRow) (cid : Nat),
      (ingestDocs collab docs rows cid).1.map (fun r => r.chunk_id) =
        List.range' (cid + 1) (ingestDocs collab docs rows cid).1.length ∧
      (ingestDocs collab docs rows cid).2 =
        cid + (ingestDocs collab docs rows cid).1.length := by
  induction docs with
  | nil => intro rows cid; simp [ingestDocs]
  | cons d ds ih =>
    intro rows cid
    have h1 := ingestDoc_ids collab d rows cid
    have h2 := ih (rows ++ (ingestDoc collab d rows cid).1)
      (ingestDoc collab d rows cid).2
    have g := ids_glue h1.1 h1.2 h2.1 h2.2
    simp only [ingestDocs]
    exact g

/-- The deferred captioning pass keeps every chunk id. -/
theorem applyImageCaptions_ids (collab : Collab) (rows : List ChunkRow) :
    (applyImageCaptions collab rows).map (fun r => r.chunk_id) =
      rows.map (fun r => r.chunk_id) := by
  unfold applyImageCaptions
  rw [List.map_map]
  apply List.map_congr_left
  intro r _
  simp only [Function.comp_apply]
  split <;> rfl

/-- C4: for every corpus ingestion run, the chunk ids assigned across all
passes are exactly 1, 2, …, N in insertion order: a strictly increasing,
gap-free sequence in which no id is ever reused. -/
theorem C4_chunk_ids (collab : Collab) (docs : List DocModel) :
    (run_ingestion collab docs).map (fun r => r.chunk_id) =
      List.range' 1 (run_ingestion collab docs).length ∧
    ((run_ingestion collab docs).map (fun r => r.chunk_id)).Pairwise
      (fun a b => a < b) := by
  have h := ingestDocs_ids collab docs [] 0
  have hmap : (run_ingestion collab docs).map (fun r => r.chunk_id) =
      (ingestDocs collab docs [] 0).1.map (fun r => r.chunk_id) := by
    unfold run_ingestion
    exact applyImageCaptions_ids collab (ingestDocs collab docs [] 0).1
  have hlen : (run_ingestion collab docs).length =
      (ingestDocs collab docs [] 0).1.length := by
    unfold run_ingestion applyImageCaptions
    rw [List.length_map]
  constructor
  · rw [hmap, hlen, h.1]
  · rw [hmap, h.1]
    exact range'_pairwise (0 + 1) _

end ClaimC4

section ClaimC5

/-- Spec-side predicate, following the spec's words: the markdown contains
an embedded "table N" marker (case-insensitive `table` + whitespace +
roman/arabic numeral). Deliberately does NOT count fig markers, unlike the
code's `FIG_TBL`. -/
def specTableMarkerSearchL : List Char → Bool
  | [] => false
  | c :: cs => figtblTableAt (c :: cs) || specTableMarkerSearchL cs

/-- Case-insensitive unanchored search for the spec's "table N" marker. -/
def specHasTableMarker (cs : List Char) : Bool :=
  specTableMarkerSearchL (lowerL cs)

/-- A concrete captioning collaborator for closed evaluations. -/
def constCollab : Collab :=
  ⟨fun _ => "a caption".toList, fun _ => "an image caption".toList⟩

/-- C5 counterexample: the markdown "fig 1 data" contains no embedded
"table N" marker, yet the table pass does not synthesize a `table1:`
prefix for it, because the code's `FIG_TBL` regex also matches fig
markers; the emitted content is the markdown unchanged. -/
theorem C5_counterexample :
    specHasTableMarker "fig 1 data".toList = false ∧
    (tablePass constCollab "doc".toList [⟨true, 1, "fig 1 data".toList⟩] 0 0).1.map
      (fun r => r.content) = ["fig 1 data".toList] := by decide

/-- C5 (amended): every row the table pass emits comes from a table with
provenance; its content gets a synthesized `table{n}:` prefix exactly when
`FIG_TBL` finds no fig/table marker in the markdown (n the per-document
running counter); the caption is always prefixed `table{n}: `, and the
row's label is `label_key` of that caption. -/
theorem C5_table_pass (collab : Collab) (stem : List Char) (tbls : List TableUnit) :
    ∀ (tblNo cid : Nat) (r : ChunkRow), r ∈ (tablePass collab stem tbls tblNo cid).1 →
      ∃ t : TableUnit, ∃ n : Nat, t ∈ tbls ∧ t.hasProv = true ∧ tblNo < n ∧
        r.content = (if figtblSearch t.md then t.md
          else "table".toList ++ natDigits n ++ ":
".toList ++ t.md) ∧
        r.caption = some ("table".toList ++ natDigits n ++ ": ".toList ++
          collab.tableCaption r.content) ∧
        r.label = label_key ("table".toList ++ natDigits n ++ ": ".toList ++
          collab.tableCaption r.content) := by
  induction tbls with
  | nil => intro tblNo cid r hr; simp [tablePass] at hr
  | cons t ts ih =>
    intro tblNo cid r hr
    by_cases hp : t.hasProv
    · simp only [tablePass] at hr
      rw [if_pos hp] at hr
      rcases List.mem_cons.mp hr with h | h
      · subst h
        exact ⟨t, tblNo + 1, List.mem_cons_self .., hp, by omega, rfl, rfl, rfl⟩
      · obtain ⟨t', n, ht', hp', hlt, hc1, hc2, hc3⟩ := ih (tblNo + 1) (cid + 1) r h
        exact ⟨t', n, List.mem_cons_of_mem _ ht', hp', by omega, hc1, hc2, hc3⟩
    · simp only [tablePass] at hr
      rw [if_neg hp] at hr
      obtain ⟨t', n, ht', hp', hlt, hc1, hc2, hc3⟩ := ih tblNo cid r hr
      exact ⟨t', n, List.mem_cons_of_mem _ ht', hp', hlt, hc1, hc2, hc3⟩

/-- The row the table pass emits for a one-table document. -/
def c5row : ChunkRow :=
  ⟨1, "doc".toList, 1, "table".toList, "table1:\nx".toList,
    some "table1: a caption".toList, none, none, some "table1".toList⟩

/-- Closed instance discharging C5's membership hypothesis at a concrete
input. -/
theorem C5_table_pass_witness :
    ∃ t : TableUnit, ∃ n : Nat,
      t ∈ [(⟨true, 1, "x".toList⟩ : TableUnit)] ∧ t.hasProv = true ∧ 0 < n ∧
      c5row.content = (if figtblSearch t.md then t.md
        else "table".toList ++ natDigits n ++ ":\n".toList ++ t.md) ∧
      c5row.caption = some ("table".toList ++ natDigits n ++ ": ".toList ++
        constCollab.tableCaption c5row.content) ∧
      c5row.label = label_key ("table".toList ++ natDigits n ++ ": ".toList ++
        constCollab.tableCaption c5row.content) :=
  C5_table_pass constCollab "doc".toList [⟨true, 1, "x".toList⟩] 0 0 c5row (by decide)

end ClaimC5

example : label_keyS "Figure IIIb" = some "fig3b" := by decide
example : label_keyS "Table II" = some "table2" := by decide
example : label_keyS "fig 12" = some "fig12" := by decide
example : label_keyS "random text" = none := by decide
example : label_keyS "fig ix" = some "fig9" := by decide

end RagSpec
